import Mathlib

/-!
# A fixed-region first-fit allocator (`allocator/mem.c`)

Shallow embedding of the allocator of `mem.c`.

* `size_t` and pointers are 64-bit words: every `+` and `-` the C code performs on
  them is taken modulo `W = 2^64`.
* The three fields of `struct allocator_header` (stored at `memory_addr`) are kept as
  fields of `State`; the rest of the memory is a map from byte addresses to words.
  A block at address `a` keeps `common.size` at `a` and, when free, `next` at `a + 8`.
* `NULL` is the word `0`; dereferencing `NULL` and running out of loop fuel both give
  `none`.
-/

namespace Allocator

/-! ## Platform constants -/

/-- Number of values of a `size_t` (64-bit). -/
def W : Nat := 18446744073709551616

/-- `ALIGNMENT` (`__BIGGEST_ALIGNMENT__`, 16 when absent). -/
def ALIGNMENT : Nat := 16

/-- `sizeof(struct common_b)`: one `size_t`. -/
def sizeof_common_b : Nat := 8

/-- `sizeof(struct bb)`: the common part only. -/
def sizeof_bb : Nat := 8

/-- `sizeof(struct bb *)`, the quantity `mem_alloc` really adds to the request. -/
def sizeof_bb_ptr : Nat := 8

/-- `sizeof(struct fb)`: `common` then `next`. -/
def sizeof_fb : Nat := 16

/-- `sizeof(struct allocator_header)`: `memory_size`, `fit`, `first`. -/
def sizeof_allocator_header : Nat := 24

/-- Offset of `next` inside `struct fb`. -/
def next_off : Nat := 8

/-! ## Memory -/

/-- Word memory indexed by byte address. -/
abbrev Mem := Nat → Nat

/-- Read the word stored at an address. -/
def rd (m : Mem) (a : Nat) : Nat := m a % W

/-- Store a word at an address. -/
def wr (m : Mem) (a v : Nat) : Mem := fun x => if x = a then v else m x

/-- Subtraction of `size_t` values. -/
def subW (a b : Nat) : Nat := (a + (W - b % W)) % W

/-- Addition of `size_t` values. -/
def addW (a b : Nat) : Nat := (a + b) % W

/-- A placement function `mem_fit_function_t`: loop fuel, memory, list head, size. -/
abbrev FitFn := Nat → Mem → Nat → Nat → Option Nat

/-- The global `memory_addr` together with the header found there and the block memory. -/
structure State where
  /-- The global `memory_addr`. -/
  memory_addr : Nat
  /-- The field `memory_size` of the header. -/
  memory_size : Nat
  /-- The field `fit` of the header. -/
  fit : FitFn
  /-- The field `first` of the header. -/
  first : Nat
  /-- The words of the block area. -/
  mem : Mem

/-! ## Placement functions -/

/-- The `while (list != NULL)` loop of `mem_fit_first`. -/
def fit_first_loop : Nat → Mem → Nat → Nat → Option Nat
  | 0, _, _, _ => none
  | fuel + 1, m, list, size =>
    if list = 0 then some 0
    else if addW size sizeof_bb ≤ rd m list then some list
    else fit_first_loop fuel m (rd m (list + next_off)) size

/-- `mem_fit_first`. -/
def mem_fit_first : FitFn := fun fuel m list size =>
  if size = 0 then some 0 else fit_first_loop fuel m list size

/-- `mem_fit_best`: always `NULL`. -/
def mem_fit_best : FitFn := fun _ _ _ _ => some 0

/-- `mem_fit_worst`: always `NULL`. -/
def mem_fit_worst : FitFn := fun _ _ _ _ => some 0

/-! ## Initialisation and policy choice -/

/-- `mem_fit`. -/
def mem_fit (σ : State) (f : FitFn) : State := { σ with fit := f }

/-- `mem_init`, run on a memory whose previous content is `m0`. -/
def mem_init (m0 : Mem) (mem taille : Nat) : State :=
  let first := addW mem sizeof_allocator_header
  let m1 := wr m0 first (subW taille sizeof_allocator_header)
  let m2 := wr m1 (first + next_off) 0
  mem_fit { memory_addr := mem, memory_size := taille, fit := mem_fit_first,
            first := first, mem := m2 } mem_fit_first

/-! ## Allocation -/

/-- The size `mem_alloc` asks the placement function for:
`taille += sizeof(struct bb *); taille = (taille + (ALIGNMENT - 1)) & ~(ALIGNMENT - 1)`. -/
def alloc_size (taille : Nat) : Nat :=
  Nat.land (addW (addW taille sizeof_bb_ptr) (ALIGNMENT - 1)) (W - 1 - (ALIGNMENT - 1))

/-- `get_prev_free_bloc`, started with `prev = first`. -/
def get_prev_free_bloc : Nat → Mem → Nat → Nat → Option Nat
  | 0, _, _, _ => none
  | fuel + 1, m, prev, block =>
    if prev < block then
      if prev = 0 then none
      else if block ≤ rd m (prev + next_off) then some prev
      else get_prev_free_bloc fuel m (rd m (prev + next_off)) block
    else some prev

/-- `mem_alloc`: the new state and the returned pointer (`0` for `NULL`). -/
def mem_alloc (fuel : Nat) (σ : State) (taille : Nat) : Option (State × Nat) :=
  let taille := alloc_size taille
  match σ.fit fuel σ.mem σ.first taille with
  | none => none
  | some fb =>
    if fb = 0 then some (σ, 0)
    else
      let taille_zone_libre := rd σ.mem fb
      let next_bloc_libre := rd σ.mem (fb + next_off)
      let new := fb
      let m1 := wr σ.mem new taille
      if subW taille_zone_libre (rd m1 new) = 0 then
        match get_prev_free_bloc fuel m1 σ.first fb with
        | none => none
        | some prev =>
          if prev = 0 then none
          else
            let m2 := wr m1 (prev + next_off) next_bloc_libre
            let first := if σ.first = new then 0 else σ.first
            some ({ σ with first := first, mem := m2 }, addW new sizeof_bb)
      else
        let fb2 := addW fb (rd m1 new)
        if fb2 = 0 then none
        else
          let m2 := wr m1 fb2 (subW taille_zone_libre (rd m1 new))
          let m3 := wr m2 (fb2 + next_off) next_bloc_libre
          let first := if σ.first = new then fb2 else σ.first
          some ({ σ with first := first, mem := m3 }, addW new sizeof_bb)

/-! ## Release -/

/-- `fusion`: the memory after the call. -/
def fusion (m : Mem) (p1 p2 new : Nat) : Option Mem :=
  if p1 = 0 then none
  else if new = addW p1 (rd m p1) ∧ addW new (rd m new) = p2 then
    if p2 = 0 then none
    else
      let m1 := wr m p1 (addW (rd m p1) (rd m p1))
      let m2 := wr m1 p1 (addW (rd m1 p1) (rd m1 p2))
      some (wr m2 (p1 + next_off) (rd m2 (p2 + next_off)))
  else if addW new (rd m new) = p1 then
    let m1 := wr m new (addW (rd m new) (rd m p1))
    if p2 = new then some (wr m1 (new + next_off) (rd m1 (p1 + next_off)))
    else if p2 ≠ 0 ∧ rd m1 (p2 + next_off) ≠ 0 then
      some (wr m1 (new + next_off) (rd m1 (p2 + next_off)))
    else some (wr m1 (new + next_off) 0)
  else some m

/-- The search loop of `mem_free`:
`while (p2 != NULL && new > p2) { p2 = p2->next; p1 = p1->next; }`. -/
def free_search : Nat → Mem → Nat → Nat → Nat → Option (Nat × Nat)
  | 0, _, _, _, _ => none
  | fuel + 1, m, new, p1, p2 =>
    if p2 ≠ 0 ∧ p2 < new then
      if p1 = 0 then none
      else free_search fuel m new (rd m (p1 + next_off)) (rd m (p2 + next_off))
    else some (p1, p2)

/-- First phase of `mem_free` (`p1 = p->first; p2 = p1->next;` and the search that
follows): the pair `(p1, p2)` handed to the second phase. -/
def free_find (fuel : Nat) (m : Mem) (first new : Nat) : Option (Nat × Nat) :=
  let p1 := first
  if p1 = 0 then none
  else
    let p2 := rd m (p1 + next_off)
    if addW new (rd m new) = p1 then some (p1, new)
    else if p1 ≠ 0 ∧ p2 ≠ 0 then free_search fuel m new p1 p2
    else some (p1, p2)

/-- Second phase of `mem_free`: either `new` is linked between `p1` and `p2`, or `fusion`
is called. -/
def free_link (m : Mem) (new p1 p2 : Nat) : Option Mem :=
  if p1 = 0 then none
  else if addW p1 (rd m p1) ≠ new ∧ addW new (rd m new) ≠ p2 ∧ p2 ≠ new then
    if new < p1 then some (wr m (new + next_off) p1)
    else some (wr (wr m (p1 + next_off) new) (new + next_off) p2)
  else fusion m p1 p2 new

/-- `mem_free`. -/
def mem_free (fuel : Nat) (σ : State) (mem : Nat) : Option State :=
  let new := subW mem sizeof_bb
  if new = 0 then none
  else
    let taille := rd σ.mem new
    let m1 := wr σ.mem new taille
    match free_find fuel m1 σ.first new with
    | none => none
    | some (p1, p2) =>
      match free_link m1 new p1 p2 with
      | none => none
      | some m2 =>
        if new ≤ subW σ.first taille then some { σ with first := new, mem := m2 }
        else some { σ with mem := m2 }

/-! ## Walk -/

/-- The loop of `mem_show`: the calls `print(block, size, is_free)` made, in order. -/
def show_loop : Nat → Mem → Nat → Nat → Nat → Option (List (Nat × Nat × Nat))
  | 0, _, _, _, _ => none
  | fuel + 1, m, block, libre, addr_fin =>
    if block < addr_fin then
      if block = 0 then none
      else if libre = block then
        (show_loop fuel m (addW block (rd m block)) (rd m (libre + next_off)) addr_fin).map
          (fun l => (block, rd m block, 1) :: l)
      else
        (show_loop fuel m (addW block (rd m block)) libre addr_fin).map
          (fun l => (block, rd m block, 0) :: l)
    else some []

/-- `mem_show`. -/
def mem_show (fuel : Nat) (σ : State) : Option (List (Nat × Nat × Nat)) :=
  show_loop fuel σ.mem (addW σ.memory_addr sizeof_allocator_header) σ.first
    (addW σ.memory_addr σ.memory_size)

/-- `get_nb_zones_libres` of `test.c`: the number of nodes of the free list. -/
def get_nb_zones_libres : Nat → Mem → Nat → Option Nat
  | 0, _, _ => none
  | fuel + 1, m, fb =>
    if fb = 0 then some 0
    else (get_nb_zones_libres fuel m (rd m (fb + next_off))).map (fun k => k + 1)

/-! ## Specification vocabulary -/

/-- `Chain m h l`: following `next` from the head `h` visits exactly the nodes `l`,
in this order, and then reaches `NULL`. -/
def Chain (m : Mem) : Nat → List Nat → Prop
  | h, [] => h = 0
  | h, a :: l => h = a ∧ a ≠ 0 ∧ Chain m (rd m (a + next_off)) l

/-- States reachable from `mem_init m0 base N` by calls of `mem_alloc` and `mem_free`
that return, the placement function staying the one `mem_init` installs (first fit).
The list holds the live pointers: those returned non-null by `mem_alloc` and not yet
passed to `mem_free`; `mem_free` is only applied to a live pointer. -/
inductive Reach (m0 : Mem) (base N : Nat) : State → List Nat → Prop
  | init : Reach m0 base N (mem_init m0 base N) []
  | alloc_ok {σ σ' : State} {L : List Nat} {fuel n p : Nat} :
      Reach m0 base N σ L → mem_alloc fuel σ n = some (σ', p) → p ≠ 0 →
      Reach m0 base N σ' (p :: L)
  | alloc_null {σ σ' : State} {L : List Nat} {fuel n : Nat} :
      Reach m0 base N σ L → mem_alloc fuel σ n = some (σ', 0) →
      Reach m0 base N σ' L
  | free {σ σ' : State} {L : List Nat} {fuel p : Nat} :
      Reach m0 base N σ L → p ∈ L → mem_free fuel σ p = some σ' →
      Reach m0 base N σ' (L.erase p)

/-- A set `S` of block addresses, all congruent to `sizeof(struct bb)` modulo `ALIGNMENT`,
such that `next` of a member is `NULL` or a member. -/
def Closed (S : Nat → Prop) (m : Mem) : Prop :=
  (∀ a, S a → a % ALIGNMENT = sizeof_bb ∧ a < W) ∧
  (∀ a, S a → rd m (a + next_off) = 0 ∨ S (rd m (a + next_off)))

/-- Invariant of the reachable states for a region whose base is a multiple of
`ALIGNMENT`: first fit is installed, and `first` and the blocks of the live pointers
belong to a closed set of staggered addresses. -/
def AlignInv (σ : State) (L : List Nat) : Prop :=
  σ.fit = mem_fit_first ∧
  ∃ S : Nat → Prop, Closed S σ.mem ∧ S σ.first ∧ ∀ p ∈ L, S (subW p sizeof_bb)

/-- The free list as `get_nb_zones_libres` of `test.c` traverses it: address and `size`
field of each node from `fb` along `next` down to `NULL`. -/
def free_list : Nat → Mem → Nat → Option (List (Nat × Nat))
  | 0, _, _ => none
  | fuel + 1, m, fb =>
    if fb = 0 then some []
    else (free_list fuel m (rd m (fb + next_off))).map (fun l => (fb, rd m fb) :: l)

/-- `Tiles m a bs e`: the blocks `bs` (address, size), each of positive size recorded in
its `size` field, lie back to back from address `a` up to address `e`. -/
def Tiles (m : Mem) : Nat → List (Nat × Nat) → Nat → Prop
  | a, [], e => a = e
  | a, b :: l, e => b.1 = a ∧ 0 < b.2 ∧ rd m a = b.2 ∧ Tiles m (a + b.2) l e

/-- Well-formed state: the region lies inside the address space, the blocks `bs` tile it
from just after the header to its end, and the free list is the null-terminated chain
`nodes`, whose members are blocks and come in ascending address order (the free blocks
are the blocks listed in `nodes`). -/
def WellFormed (σ : State) (bs : List (Nat × Nat)) (nodes : List Nat) : Prop :=
  σ.memory_addr + σ.memory_size < W ∧
  Tiles σ.mem (σ.memory_addr + sizeof_allocator_header) bs (σ.memory_addr + σ.memory_size) ∧
  Chain σ.mem σ.first nodes ∧
  nodes.Sublist (bs.map Prod.fst)

/-- Consecutive `mem_alloc` calls for the requests of a list, each required to return a
non-null pointer: the state reached and the pointers obtained, the most recent first. -/
def alloc_seq (fuel : Nat) : State → List Nat → Option (State × List Nat)
  | σ, [] => some (σ, [])
  | σ, n :: rest =>
    match mem_alloc fuel σ n with
    | none => none
    | some (σ1, p) =>
      if p = 0 then none
      else (alloc_seq fuel σ1 rest).map (fun r => (r.1, r.2 ++ [p]))

/-- Consecutive `mem_free` calls on the pointers of a list, in list order. -/
def free_seq (fuel : Nat) : State → List Nat → Option State
  | σ, [] => some σ
  | σ, p :: rest => (mem_free fuel σ p).bind (fun σ1 => free_seq fuel σ1 rest)

/-- First fit is installed and the free list is the single node `t`, of size `s`, which
ends at `E` inside the address space. -/
def TailState (σ : State) (t s E : Nat) : Prop :=
  σ.fit = mem_fit_first ∧ σ.first = t ∧ rd σ.mem t = s ∧ rd σ.mem (t + next_off) = 0 ∧
  0 < t ∧ t + s = E ∧ E ≤ W

/-- The `size` field of every member of `S` is a multiple of `ALIGNMENT`. -/
def Sized (S : Nat → Prop) (m : Mem) : Prop :=
  ∀ a, S a → rd m a % ALIGNMENT = 0

/-- A set `S` of block addresses, all congruent to `r` modulo `ALIGNMENT` and below
`2^64`, that is closed under `next`: the `next` field of a member is `NULL` or a member. -/
def ClosedAt (r : Nat) (S : Nat → Prop) (m : Mem) : Prop :=
  (∀ a, S a → a % ALIGNMENT = r ∧ a < W) ∧
  (∀ a, S a → rd m (a + next_off) = 0 ∨ S (rd m (a + next_off)))

/-- Invariant of the reachable states when the size of the first block is a multiple of
`ALIGNMENT`, whatever the base: first fit is installed, and `first` and the blocks of the
live pointers belong to a set of addresses congruent modulo `ALIGNMENT` that is closed
under `next` and whose members all have a `size` field that is a multiple of
`ALIGNMENT`. -/
def SizeInv (σ : State) (L : List Nat) : Prop :=
  σ.fit = mem_fit_first ∧
  ∃ (r : Nat) (S : Nat → Prop), ClosedAt r S σ.mem ∧ Sized S σ.mem ∧ S σ.first ∧
    ∀ p ∈ L, S (subW p sizeof_bb)

/-- The node reached from `fb` after `k` steps along `next` (`NULL` once the list has
ended). -/
def node_at (m : Mem) : Nat → Nat → Nat
  | 0, fb => fb
  | k + 1, fb => if fb = 0 then 0 else node_at m k (rd m (fb + next_off))

/-! ## Concrete scenarios -/

/-- A memory holding zeros. -/
def zeroMem : Mem := fun _ => 0

/-- A region of 1024 bytes at address 4096, just initialised. -/
def demo_init : State := mem_init zeroMem 4096 1024

/-- Scenario `a = alloc(n1); b = alloc(n2); free(a); free(b)` on the fresh region. -/
def run_queue (n1 n2 : Nat) : Option State :=
  (mem_alloc 8 demo_init n1).bind fun r1 =>
  (mem_alloc 8 r1.1 n2).bind fun r2 =>
  (mem_free 8 r2.1 r1.2).bind fun s3 =>
  mem_free 8 s3 r2.2

/-- Scenario `a = alloc(100); b = alloc(10); free(a); c = alloc(200); d = alloc(150)` on
the fresh region: the pointers `(a, b, c, d)`. -/
def run_reuse : Option (Nat × Nat × Nat × Nat) :=
  (mem_alloc 8 demo_init 100).bind fun r1 =>
  (mem_alloc 8 r1.1 10).bind fun r2 =>
  (mem_free 8 r2.1 r1.2).bind fun s3 =>
  (mem_alloc 8 s3 200).bind fun r4 =>
  (mem_alloc 8 r4.1 150).map fun r5 => (r1.2, r2.2, r4.2, r5.2)

/-- Scenario `p = alloc(2^64 - 7)` on the fresh region: the pointer and the `size` field
below it. -/
def run_huge : Option (Nat × Nat) :=
  (mem_alloc 8 demo_init (W - 7)).map fun r => (r.2, rd r.1.mem (subW r.2 sizeof_bb))

/-- Scenario: five times `alloc(10)` giving `a, x, b, r, e`, then `free(a); free(r)`.
The state reached and the pointer `b`. -/
def run_right_setup : Option (State × Nat) :=
  (mem_alloc 8 demo_init 10).bind fun r1 =>
  (mem_alloc 8 r1.1 10).bind fun r2 =>
  (mem_alloc 8 r2.1 10).bind fun r3 =>
  (mem_alloc 8 r3.1 10).bind fun r4 =>
  (mem_alloc 8 r4.1 10).bind fun r5 =>
  (mem_free 8 r5.1 r1.2).bind fun s6 =>
  (mem_free 8 s6 r4.2).map fun s7 => (s7, r3.2)

/-- Scenario: three times `alloc(10)` giving `a, b, c`, then `free(a)`. The state reached
and the pointer `b`. -/
def run_left_setup : Option (State × Nat) :=
  (mem_alloc 8 demo_init 10).bind fun r1 =>
  (mem_alloc 8 r1.1 10).bind fun r2 =>
  (mem_alloc 8 r2.1 10).bind fun r3 =>
  (mem_free 8 r3.1 r1.2).map fun s4 => (s4, r2.2)

/-- The fresh region after `mem_alloc(10)`: the state and the pointer. -/
def demo_alloc10 : State × Nat := (mem_alloc 2 demo_init 10).getD (demo_init, 0)

/-- Then after `mem_alloc(30)`: the state and the pointer. -/
def demo_alloc30 : State × Nat := (mem_alloc 2 demo_alloc10.1 30).getD (demo_init, 0)

/-- A memory with a free list of two nodes: 4120 (112 bytes) then 4264 (856 bytes). -/
def demo_two_nodes : Mem := wr (wr (wr (wr zeroMem 4120 112) 4128 4264) 4264 856) 4272 0

/-- A placement function a caller can install with `mem_fit` (it is not part of `mem.c`):
the first node whose `size` is at least the requested size, that is `mem_fit_first`
without its margin of `sizeof(struct bb)`. -/
def fit_plain : FitFn
  | 0, _, _, _ => none
  | fuel + 1, m, list, size =>
    if list = 0 then some 0
    else if size ≤ rd m list then some list
    else fit_plain fuel m (rd m (list + next_off)) size

/-- Scenario: `a = alloc(10); b = alloc(30); c = alloc(10); d = alloc(10); free(a);
free(c)` on the fresh region. The state reached and the pointer `b`. -/
def run_bracket_setup : Option (State × Nat) :=
  (mem_alloc 8 demo_init 10).bind fun r1 =>
  (mem_alloc 8 r1.1 30).bind fun r2 =>
  (mem_alloc 8 r2.1 10).bind fun r3 =>
  (mem_alloc 8 r3.1 10).bind fun r4 =>
  (mem_free 8 r4.1 r1.2).bind fun s5 =>
  (mem_free 8 s5 r3.2).map fun s6 => (s6, r2.2)

/-- Scenario `test05`: six allocations of 20, 25, 30, 35, 40, 45 bytes, then the 2nd, the
4th and the 3rd are released. The value of `get_nb_zones_libres` after each release and
the free list at the end. -/
def run_test05 : Option (Option Nat × Option Nat × Option Nat × Option (List (Nat × Nat))) :=
  (mem_alloc 8 demo_init 20).bind fun r1 =>
  (mem_alloc 8 r1.1 25).bind fun r2 =>
  (mem_alloc 8 r2.1 30).bind fun r3 =>
  (mem_alloc 8 r3.1 35).bind fun r4 =>
  (mem_alloc 8 r4.1 40).bind fun r5 =>
  (mem_alloc 8 r5.1 45).bind fun r6 =>
  (mem_free 8 r6.1 r2.2).bind fun s7 =>
  (mem_free 8 s7 r4.2).bind fun s8 =>
  (mem_free 8 s8 r3.2).map fun s9 =>
    (get_nb_zones_libres 8 s7.mem s7.first, get_nb_zones_libres 8 s8.mem s8.first,
      get_nb_zones_libres 8 s9.mem s9.first, free_list 8 s9.mem s9.first)

/-- Scenario `test03`: `(1024 - 24) / 32 = 31` calls `alloc(10)` on the fresh region. The
state reached and the pointer obtained at index `31 / 2 = 15`. -/
def run_fill : Option (State × Nat) :=
  (alloc_seq 2 demo_init (List.replicate 31 10)).map fun r => (r.1, r.2.getD 15 0)

/-- Scenario: a region of 56 bytes at 4096, `mem_fit(fit_plain)`, `p = alloc(10)`: the
only block is handed out whole. The state reached and the pointer `p`. -/
def run_full : Option (State × Nat) :=
  mem_alloc 2 (mem_fit (mem_init zeroMem 4096 56) fit_plain) 10

/-- Scenario: `a = alloc(100); b = alloc(10); free(a)` on the fresh region. -/
def run_split_setup : Option State :=
  (mem_alloc 8 demo_init 100).bind fun r1 =>
  (mem_alloc 8 r1.1 10).bind fun r2 =>
  mem_free 8 r2.1 r1.2

/-- Scenario: `a = alloc(10); b = alloc(10); free(a); mem_fit(fit_plain)` on the fresh
region. -/
def run_exact_setup : Option State :=
  (mem_alloc 8 demo_init 10).bind fun r1 =>
  (mem_alloc 8 r1.1 10).bind fun r2 =>
  (mem_free 8 r2.1 r1.2).map fun s3 => mem_fit s3 fit_plain

/-- Scenario: `a = alloc(n); b = alloc(0); c = alloc(0); d = alloc(0); free(a); free(c);
free(b)` on the fresh region (`d` stays live). -/
def run_swallow (n : Nat) : Option State :=
  (mem_alloc 8 demo_init n).bind fun r1 =>
  (mem_alloc 8 r1.1 0).bind fun r2 =>
  (mem_alloc 8 r2.1 0).bind fun r3 =>
  (mem_alloc 8 r3.1 0).bind fun r4 =>
  (mem_free 8 r4.1 r1.2).bind fun s5 =>
  (mem_free 8 s5 r3.2).bind fun s6 =>
  mem_free 8 s6 r2.2

/-- The state and the pointer `b` reached by `run_bracket_setup`. -/
def demo_bracket : State × Nat := run_bracket_setup.getD (demo_init, 0)

/-- The state and the pointer reached by `run_full`. -/
def demo_full : State × Nat := run_full.getD (demo_init, 0)

/-- The state reached by `run_split_setup`. -/
def demo_split : State := run_split_setup.getD demo_init

/-- The state reached by `run_exact_setup`. -/
def demo_exact : State := run_exact_setup.getD demo_init

/-- The fresh region after the request `[10]`: the state and the pointers. -/
def demo_stack_pre : State × List Nat := (alloc_seq 2 demo_init [10]).getD (demo_init, [])

/-- Then after the requests `[30, 20]`: the state and the pointers, the most recent
first. -/
def demo_stack_post : State × List Nat :=
  (alloc_seq 2 demo_stack_pre.1 [30, 20]).getD (demo_init, [])

/-- Scenario: `mem_fit(fit_plain)` on the fresh region, then `p = alloc(2^64 - 8)` and
`q = alloc(10)`: the pointer `p`, the `size` field below it and the free list right after
the first call, and the pointer `q`. -/
def run_wrap_zero : Option (Nat × Nat × Option (List (Nat × Nat)) × Nat) :=
  (mem_alloc 2 (mem_fit demo_init fit_plain) (W - 8)).bind fun r1 =>
  (mem_alloc 2 r1.1 10).map fun r2 =>
    (r1.2, rd r1.1.mem (subW r1.2 sizeof_bb), free_list 4 r1.1.mem r1.1.first, r2.2)

/-- A region of 1032 bytes at address 4100, which is not a multiple of `ALIGNMENT`, just
initialised: its only block has 1008 bytes. -/
def skew_init : State := mem_init zeroMem 4100 1032

/-- The region at 4100 after `mem_alloc(10)`: the state and the pointer. -/
def skew_alloc10 : State × Nat := (mem_alloc 2 skew_init 10).getD (skew_init, 0)

/-- Then after `mem_alloc(30)`: the state and the pointer. -/
def skew_alloc30 : State × Nat := (mem_alloc 2 skew_alloc10.1 30).getD (skew_init, 0)

/-- Then after `mem_free` of the first pointer. -/
def skew_freed : State := (mem_free 3 skew_alloc30.1 skew_alloc10.2).getD skew_init

/-! # Properties -/

/-! ## Words and memory -/

theorem rd_lt (m : Mem) (a : Nat) : rd m a < W :=
  Nat.mod_lt _ (by unfold W; omega)

theorem rd_wr_same (m : Mem) (a v : Nat) : rd (wr m a v) a = v % W := by
  simp [rd, wr]

theorem rd_wr_of_lt (m : Mem) (a v : Nat) (hv : v < W) : rd (wr m a v) a = v := by
  rw [rd_wr_same, Nat.mod_eq_of_lt hv]

theorem rd_wr_ne (m : Mem) (a v x : Nat) (h : x ≠ a) : rd (wr m a v) x = rd m x := by
  simp [rd, wr, h]

theorem land_high_mask (x : Nat) (hx : x < 2 ^ 64) : x &&& (2 ^ 64 - 16) = 16 * (x / 16) := by
  apply Nat.eq_of_testBit_eq
  intro i
  have hm : (2 ^ 64 - 16 : Nat) = 2 ^ 4 * (2 ^ 60 - 1) := by norm_num
  have h16 : (16 : Nat) = 2 ^ 4 := by norm_num
  rw [hm, h16, Nat.testBit_and, Nat.testBit_mul_pow_two, Nat.testBit_mul_pow_two,
    Nat.testBit_two_pow_sub_one, ← Nat.shiftRight_eq_div_pow, Nat.testBit_shiftRight]
  by_cases h4 : 4 ≤ i
  · have e : 4 + (i - 4) = i := by omega
    rw [e]
    by_cases h64 : i < 64
    · have : i - 4 < 60 := by omega
      simp [h4, this]
    · have hf : x.testBit i = false := by
        apply Nat.testBit_lt_two_pow
        exact lt_of_lt_of_le hx (Nat.pow_le_pow_right (by norm_num) (by omega))
      simp [hf]
  · simp [h4]

/-- The masked sum of `mem_alloc` is the sum rounded down to a multiple of 16. -/
theorem alloc_size_eq (n : Nat) :
    alloc_size n = 16 * (((n + 8) % W + 15) % W / 16) := by
  have hlt : ((n + 8) % W + 15) % W < 2 ^ 64 := by
    have := Nat.mod_lt ((n + 8) % W + 15) (show 0 < W by unfold W; omega)
    unfold W at this ⊢
    omega
  have h := land_high_mask _ hlt
  unfold alloc_size addW sizeof_bb_ptr ALIGNMENT
  have e : W - 1 - (16 - 1) = 2 ^ 64 - 16 := by unfold W; norm_num
  rw [e]
  exact h

theorem alloc_size_mod (n : Nat) : alloc_size n % 16 = 0 := by
  rw [alloc_size_eq]; omega

theorem alloc_size_lt (n : Nat) : alloc_size n + 16 ≤ W := by
  rw [alloc_size_eq]
  have := Nat.mod_lt ((n + 8) % W + 15) (show 0 < W by unfold W; omega)
  unfold W at this ⊢
  omega

/-- Without wrap-around the requested size is the request plus the `size` field,
rounded up to the next multiple of 16. -/
theorem alloc_size_round_up (n : Nat) (hn : n + 8 + 15 < W) :
    alloc_size n = (n + 8 + 15) / 16 * 16 := by
  rw [alloc_size_eq]
  unfold W at hn ⊢
  omega

/-! ## First fit -/

theorem fit_first_loop_none_fit (m : Mem) (size : Nat) :
    ∀ (nodes : List Nat) (list fuel : Nat), Chain m list nodes → nodes.length < fuel →
      (∀ a ∈ nodes, rd m a < addW size sizeof_bb) →
      fit_first_loop fuel m list size = some 0 := by
  intro nodes
  induction nodes with
  | nil =>
    intro list fuel hc hf _
    cases fuel with
    | zero => simp at hf
    | succ k =>
      simp only [Chain] at hc
      simp [fit_first_loop, hc]
  | cons a l ih =>
    intro list fuel hc hf hall
    cases fuel with
    | zero => simp at hf
    | succ k =>
      obtain ⟨h1, h2, h3⟩ := hc
      subst h1
      have ha : ¬ addW size sizeof_bb ≤ rd m list := by
        have := hall list (List.mem_cons_self _ _)
        omega
      have hk : l.length < k := by simpa using hf
      simp only [fit_first_loop, h2, ha, if_false]
      exact ih _ k h3 hk (fun b hb => hall b (List.mem_cons_of_mem _ hb))

theorem fit_first_loop_first_fit (m : Mem) (size : Nat) :
    ∀ (pre : List Nat) (a : Nat) (post : List Nat) (list fuel : Nat),
      Chain m list (pre ++ a :: post) → pre.length < fuel →
      (∀ b ∈ pre, rd m b < addW size sizeof_bb) → addW size sizeof_bb ≤ rd m a →
      fit_first_loop fuel m list size = some a := by
  intro pre
  induction pre with
  | nil =>
    intro a post list fuel hc hf _ ha
    cases fuel with
    | zero => simp at hf
    | succ k =>
      obtain ⟨h1, h2, _⟩ := hc
      subst h1
      simp [fit_first_loop, h2, ha]
  | cons b l ih =>
    intro a post list fuel hc hf hall ha
    cases fuel with
    | zero => simp at hf
    | succ k =>
      obtain ⟨h1, h2, h3⟩ := hc
      subst h1
      have hb : ¬ addW size sizeof_bb ≤ rd m list := by
        have := hall list (List.mem_cons_self _ _)
        omega
      have hk : l.length < k := by simpa using hf
      simp only [fit_first_loop, h2, hb, if_false]
      exact ih a post _ k h3 hk (fun c hc => hall c (List.mem_cons_of_mem _ hc)) ha

theorem Chain.ne_zero {m : Mem} : ∀ {nodes : List Nat} {list : Nat}, Chain m list nodes →
    ∀ a ∈ nodes, a ≠ 0 := by
  intro nodes
  induction nodes with
  | nil => intro _ _ a ha; simp at ha
  | cons b l ih =>
    intro list hc a ha
    obtain ⟨_, h2, h3⟩ := hc
    rcases List.mem_cons.mp ha with h | h
    · subst h; exact h2
    · exact ih h3 a h

/-- C8. On a null-terminated free list `nodes` starting at `list`, `mem_fit_first`
returns (given fuel for one pass over the list): `NULL` when `size == 0`; otherwise the
first node in list order whose `size` field is at least `size + sizeof(struct bb)`
(the sum as the C expression computes it, in `size_t`: the plain sum whenever it is below
`2^64`), and `NULL` exactly when no node reaches that bound. The function only reads the
memory: it has no memory result, so the list is the same after the call. -/
theorem mem_fit_first_reference (m : Mem) (list size fuel : Nat) (nodes : List Nat)
    (hc : Chain m list nodes) (hf : nodes.length < fuel) :
    (size = 0 → mem_fit_first fuel m list size = some 0) ∧
    (size ≠ 0 → ∀ pre a post, nodes = pre ++ a :: post →
        (∀ b ∈ pre, rd m b < addW size sizeof_bb) → addW size sizeof_bb ≤ rd m a →
        mem_fit_first fuel m list size = some a) ∧
    (size ≠ 0 → (mem_fit_first fuel m list size = some 0 ↔
        ∀ a ∈ nodes, rd m a < addW size sizeof_bb)) ∧
    (∃ r, mem_fit_first fuel m list size = some r ∧ (r = 0 ∨ r ∈ nodes)) ∧
    (size + sizeof_bb < W → addW size sizeof_bb = size + sizeof_bb) := by
  have hfirst : size ≠ 0 → ∀ pre a post, nodes = pre ++ a :: post →
      (∀ b ∈ pre, rd m b < addW size sizeof_bb) → addW size sizeof_bb ≤ rd m a →
      mem_fit_first fuel m list size = some a := by
    intro hs pre a post hn hpre ha
    subst hn
    have hlen : pre.length < fuel := by
      have : pre.length ≤ (pre ++ a :: post).length := by simp
      omega
    simp only [mem_fit_first, hs, if_false]
    exact fit_first_loop_first_fit m size pre a post list fuel hc hlen hpre ha
  have hnone : size ≠ 0 → (∀ a ∈ nodes, rd m a < addW size sizeof_bb) →
      mem_fit_first fuel m list size = some 0 := by
    intro hs hall
    simp only [mem_fit_first, hs, if_false]
    exact fit_first_loop_none_fit m size nodes list fuel hc hf hall
  -- either some node fits, and the first such node splits the list, or none does
  have hsplit : (∀ a ∈ nodes, rd m a < addW size sizeof_bb) ∨
      ∃ pre a post, nodes = pre ++ a :: post ∧
        (∀ b ∈ pre, rd m b < addW size sizeof_bb) ∧ addW size sizeof_bb ≤ rd m a := by
    clear hfirst hnone hc hf
    induction nodes with
    | nil => left; intro a ha; simp at ha
    | cons b l ih =>
      by_cases hb : addW size sizeof_bb ≤ rd m b
      · right; exact ⟨[], b, l, rfl, by simp, hb⟩
      · rcases ih with h | ⟨pre, a, post, h1, h2, h3⟩
        · left
          intro a ha
          rcases List.mem_cons.mp ha with h' | h'
          · subst h'; omega
          · exact h a h'
        · right
          refine ⟨b :: pre, a, post, by simp [h1], ?_, h3⟩
          intro c hc
          rcases List.mem_cons.mp hc with h' | h'
          · subst h'; omega
          · exact h2 c h'
  refine ⟨?_, hfirst, ?_, ?_, fun hw => Nat.mod_eq_of_lt hw⟩
  · intro hs; simp [mem_fit_first, hs]
  · intro hs
    constructor
    · intro h0
      rcases hsplit with h | ⟨pre, a, post, h1, h2, h3⟩
      · exact h
      · have := hfirst hs pre a post h1 h2 h3
        rw [this] at h0
        have ha : a ≠ 0 := hc.ne_zero a (by simp [h1])
        simp at h0
        exact absurd h0 ha
    · exact hnone hs
  · by_cases hs : size = 0
    · exact ⟨0, by simp [mem_fit_first, hs], Or.inl rfl⟩
    · rcases hsplit with h | ⟨pre, a, post, h1, h2, h3⟩
      · exact ⟨0, hnone hs h, Or.inl rfl⟩
      · exact ⟨a, hfirst hs pre a post h1 h2 h3, Or.inr (by simp [h1])⟩

/-! ## Allocation under first fit -/

/-- What the loop of `mem_fit_first` returns satisfies every property that holds of the
head and is carried along `next`; a non-null result is large enough. -/
theorem fit_first_loop_sound (P : Nat → Prop) (m : Mem) (size : Nat)
    (hnext : ∀ a, P a → a ≠ 0 → P (rd m (a + next_off))) :
    ∀ (fuel list v : Nat), P list → fit_first_loop fuel m list size = some v →
      P v ∧ (v = 0 ∨ addW size sizeof_bb ≤ rd m v) := by
  intro fuel
  induction fuel with
  | zero => intro list v _ h; simp [fit_first_loop] at h
  | succ k ih =>
    intro list v hP h
    simp only [fit_first_loop] at h
    split at h
    · rename_i h0
      simp at h; subst h
      exact ⟨h0 ▸ hP, Or.inl rfl⟩
    · rename_i h0
      split at h
      · rename_i hle
        simp at h; subst h
        exact ⟨hP, Or.inr hle⟩
      · exact ih _ v (hnext list hP h0) h

theorem subW_of_le (a b : Nat) (hb : b ≤ a) (ha : a < W) : subW a b = a - b := by
  unfold subW
  have hbW : b % W = b := Nat.mod_eq_of_lt (by omega)
  rw [hbW]
  unfold W at ha ⊢
  omega

/-- Shape of a successful `mem_alloc` when the installed policy is `mem_fit_first`: either
the policy found nothing and nothing changed, or it chose a block `V` strictly larger
than the request, which is split. -/
theorem mem_alloc_first_fit_cases (fuel : Nat) (σ σ' : State) (n p : Nat)
    (hfit : σ.fit = mem_fit_first) (h : mem_alloc fuel σ n = some (σ', p)) :
    (mem_fit_first fuel σ.mem σ.first (alloc_size n) = some 0 ∧ σ' = σ ∧ p = 0) ∨
    (∃ V, mem_fit_first fuel σ.mem σ.first (alloc_size n) = some V ∧ V ≠ 0 ∧
      alloc_size n ≠ 0 ∧ alloc_size n + 8 ≤ rd σ.mem V ∧ addW V (alloc_size n) ≠ 0 ∧
      p = addW V sizeof_bb ∧
      σ' = { σ with
        first := if σ.first = V then addW V (alloc_size n) else σ.first,
        mem := wr (wr (wr σ.mem V (alloc_size n)) (addW V (alloc_size n))
                (rd σ.mem V - alloc_size n))
                (addW V (alloc_size n) + next_off) (rd σ.mem (V + next_off)) }) := by
  have hmod := alloc_size_mod n
  have hlt := alloc_size_lt n
  have hcall : σ.fit fuel σ.mem σ.first (alloc_size n) =
      mem_fit_first fuel σ.mem σ.first (alloc_size n) := by rw [hfit]
  unfold mem_alloc at h
  simp only [hcall] at h
  cases hV : mem_fit_first fuel σ.mem σ.first (alloc_size n) with
  | none => simp [hV] at h
  | some V =>
    simp only [hV] at h
    by_cases hV0 : V = 0
    · subst hV0
      simp at h
      left
      exact ⟨rfl, h.1.symm, h.2.symm⟩
    · right
      simp only [hV0, if_false] at h
      -- the request is not zero and the block is large enough
      have hne : alloc_size n ≠ 0 := by
        intro h0
        simp [mem_fit_first, h0] at hV
        exact hV0 hV.symm
      have hbig : alloc_size n + 8 ≤ rd σ.mem V := by
        simp only [mem_fit_first, hne, if_false] at hV
        have := fit_first_loop_sound (fun _ => True) σ.mem (alloc_size n)
          (fun _ _ _ => trivial) fuel σ.first V trivial hV
        rcases this.2 with h0 | hle
        · exact absurd h0 hV0
        · have e : addW (alloc_size n) sizeof_bb = alloc_size n + 8 := by
            unfold addW sizeof_bb
            exact Nat.mod_eq_of_lt (by omega)
          omega
      have hrdV := rd_lt σ.mem V
      have hrd1 : rd (wr σ.mem V (alloc_size n)) V = alloc_size n :=
        rd_wr_of_lt _ _ _ (by omega)
      have hsub : subW (rd σ.mem V) (alloc_size n) = rd σ.mem V - alloc_size n :=
        subW_of_le _ _ (by omega) hrdV
      rw [hrd1, hsub] at h
      have hnz : ¬ (rd σ.mem V - alloc_size n = 0) := by omega
      simp only [hnz, if_false] at h
      by_cases hfb : addW V (alloc_size n) = 0
      · simp [hfb] at h
      · simp only [hfb, if_false] at h
        simp at h
        exact ⟨V, rfl, hV0, hne, hbig, hfb, h.2.symm, h.1.symm⟩
theorem mem_fit_first_lt (fuel : Nat) (m : Mem) (list size v : Nat) (hl : list < W)
    (h : mem_fit_first fuel m list size = some v) : v < W := by
  unfold mem_fit_first at h
  split at h
  · simp at h; subst h; unfold W; omega
  · exact (fit_first_loop_sound (fun a => a < W) m size (fun a _ _ => rd_lt m _)
      fuel list v hl h).1

theorem subW_addW_cancel (v k : Nat) (hv : v < W) (hk : k < W) : subW (addW v k) k = v := by
  unfold subW addW
  have hkW : k % W = k := Nat.mod_eq_of_lt hk
  rw [hkW]
  unfold W at hv hk ⊢
  omega

/-- Recorded size under the placement functions of `mem.c`. Whatever state `mem_alloc`
runs in, with one of the three placement functions of `mem.c` installed and `first` a
machine word, when it returns a non-null pointer `p` the `size` field found at
`p - sizeof(struct bb)` is
`(n + sizeof(struct bb) + (ALIGNMENT-1)) & ~(ALIGNMENT-1)`, computed in `size_t`; when the
sum does not wrap this is `n + sizeof(struct bb)` rounded up to a multiple of
`ALIGNMENT`. -/
theorem mem_alloc_recorded_size (fuel : Nat) (σ σ' : State) (n p : Nat)
    (hfit : σ.fit = mem_fit_first ∨ σ.fit = mem_fit_best ∨ σ.fit = mem_fit_worst)
    (hfirst : σ.first < W) (h : mem_alloc fuel σ n = some (σ', p)) (hp : p ≠ 0) :
    rd σ'.mem (subW p sizeof_bb) =
        Nat.land (addW (addW n sizeof_bb) (ALIGNMENT - 1)) (W - 1 - (ALIGNMENT - 1)) ∧
    (n + sizeof_bb + (ALIGNMENT - 1) < W →
      rd σ'.mem (subW p sizeof_bb) =
        (n + sizeof_bb + (ALIGNMENT - 1)) / ALIGNMENT * ALIGNMENT) := by
  have key : rd σ'.mem (subW p sizeof_bb) = alloc_size n := by
    rcases hfit with hf | hf | hf
    · rcases mem_alloc_first_fit_cases fuel σ σ' n p hf h with ⟨_, _, h0⟩ | ⟨V, hV, hV0, hne, hbig, hfb, hpV, hσ⟩
      · exact absurd h0 hp
      · have hVlt := mem_fit_first_lt fuel σ.mem σ.first _ V hfirst hV
        have hmod := alloc_size_mod n
        have hlt := alloc_size_lt n
        have hpV2 : subW p sizeof_bb = V := by
          rw [hpV]; exact subW_addW_cancel V sizeof_bb hVlt (by unfold sizeof_bb W; omega)
        rw [hpV2, hσ]
        simp only
        have h1 : V ≠ addW V (alloc_size n) + next_off := by
          unfold addW next_off; unfold W at hVlt hlt ⊢; omega
        have h2 : V ≠ addW V (alloc_size n) := by
          unfold addW; unfold W at hVlt hlt ⊢; omega
        rw [rd_wr_ne _ _ _ _ h1, rd_wr_ne _ _ _ _ h2]
        exact rd_wr_of_lt _ _ _ (by omega)
    · unfold mem_alloc at h
      simp [hf, mem_fit_best] at h
      exact absurd h.2.symm hp
    · unfold mem_alloc at h
      simp [hf, mem_fit_worst] at h
      exact absurd h.2.symm hp
  refine ⟨key, ?_⟩
  intro hn
  rw [key]
  have := alloc_size_round_up n (by unfold sizeof_bb ALIGNMENT at hn; omega)
  rw [this]
  unfold sizeof_bb ALIGNMENT
  omega

theorem alloc_size_one : alloc_size 1 = 16 := by decide

/-- After `mem_init` on a region of at least 48 bytes lying inside the address space,
`mem_alloc(1)` under first fit succeeds with a non-null pointer. -/
theorem mem_alloc_one_after_init (m0 : Mem) (base N fuel : Nat) (f : FitFn)
    (hN : 48 ≤ N) (hfits : base + N ≤ W) :
    ∃ σ' p, mem_alloc (fuel + 1) (mem_fit (mem_fit (mem_init m0 base N) f) mem_fit_first) 1
      = some (σ', p) ∧ p ≠ 0 := by
  have hfirst : addW base sizeof_allocator_header = base + 24 := by
    unfold addW sizeof_allocator_header
    exact Nat.mod_eq_of_lt (by omega)
  have hsz : subW N sizeof_allocator_header = N - 24 := by
    unfold subW sizeof_allocator_header
    unfold W at hfits ⊢
    omega
  have hNW : N - 24 < W := by omega
  have hrd : rd (wr (wr m0 (base + 24) (N - 24)) (base + 24 + next_off) 0) (base + 24)
      = N - 24 := by
    rw [rd_wr_ne _ _ _ _ (by unfold next_off; omega)]
    exact rd_wr_of_lt _ _ _ hNW
  have hfit : mem_fit_first (fuel + 1)
      (wr (wr m0 (base + 24) (N - 24)) (base + 24 + next_off) 0) (base + 24) 16
      = some (base + 24) := by
    have h24 : addW 16 sizeof_bb = 24 := by decide
    simp only [mem_fit_first, fit_first_loop, hrd, h24]
    have : 24 ≤ N - 24 := by omega
    simp [this]
  have hfb2 : addW (base + 24) 16 = base + 40 := by
    unfold addW
    exact Nat.mod_eq_of_lt (by omega)
  have hp : addW (base + 24) sizeof_bb = base + 32 := by
    unfold addW sizeof_bb
    exact Nat.mod_eq_of_lt (by omega)
  have hsub : subW (N - 24) 16 = N - 40 := by
    rw [subW_of_le _ _ (by omega) hNW]; omega
  have hrd1 : rd (wr (wr (wr m0 (base + 24) (N - 24)) (base + 24 + next_off) 0)
      (base + 24) 16) (base + 24) = 16 := rd_wr_of_lt _ _ _ (by unfold W; omega)
  simp only [mem_alloc, mem_fit, mem_init, hfirst, hsz, alloc_size_one, hfit, hrd, hrd1,
    hsub, hfb2, hp]
  have h1 : base + 24 ≠ 0 := by omega
  have h2 : N - 40 ≠ 0 := by omega
  have h3 : base + 40 ≠ 0 := by omega
  simp only [h1, h2, h3, if_false]
  exact ⟨_, _, rfl, by omega⟩

/-- C7. `mem_alloc` and the installed placement function `f` (any function returning
`NULL` or the address of a `struct fb` lying in the address space): when `f` returns
`NULL`, `mem_alloc` returns `NULL` and the state is untouched; whenever `mem_alloc`
returns, it returns `NULL` if and only if `f` returned `NULL`, and then the state is
the one before the call. Scenario: after `mem_init` on a region of at least 48 bytes,
with `mem_fit_worst` installed `mem_alloc(1)` returns `NULL`, and after
`mem_fit(mem_fit_first)` the call `mem_alloc(1)` returns a non-null pointer. -/
theorem mem_alloc_failure (fuel : Nat) (σ : State) (n : Nat)
    (hv : ∀ v, σ.fit fuel σ.mem σ.first (alloc_size n) = some v → v = 0 ∨ v + sizeof_fb ≤ W) :
    (σ.fit fuel σ.mem σ.first (alloc_size n) = some 0 → mem_alloc fuel σ n = some (σ, 0)) ∧
    (∀ σ' p, mem_alloc fuel σ n = some (σ', p) →
      (p = 0 ↔ σ.fit fuel σ.mem σ.first (alloc_size n) = some 0) ∧ (p = 0 → σ' = σ)) ∧
    (∀ (m0 : Mem) (base N k : Nat), 48 ≤ N → base + N ≤ W →
      mem_alloc k (mem_fit (mem_init m0 base N) mem_fit_worst) 1
        = some (mem_fit (mem_init m0 base N) mem_fit_worst, 0) ∧
      ∃ σ' p, mem_alloc (k + 1)
        (mem_fit (mem_fit (mem_init m0 base N) mem_fit_worst) mem_fit_first) 1
          = some (σ', p) ∧ p ≠ 0) := by
  refine ⟨?_, ?_, ?_⟩
  · intro h0
    simp [mem_alloc, h0]
  · intro σ' p h
    unfold mem_alloc at h
    cases hV : σ.fit fuel σ.mem σ.first (alloc_size n) with
    | none => simp [hV] at h
    | some V =>
      simp only [hV] at h
      by_cases hV0 : V = 0
      · subst hV0
        simp at h
        exact ⟨⟨fun _ => rfl, fun _ => h.2.symm⟩, fun _ => h.1.symm⟩
      · have hVW : V + sizeof_fb ≤ W := by
          rcases hv V hV with h0 | h1
          · exact absurd h0 hV0
          · exact h1
        have hpne : addW V sizeof_bb ≠ 0 := by
          unfold addW sizeof_bb
          unfold sizeof_fb at hVW
          rw [Nat.mod_eq_of_lt (by omega)]
          omega
        simp only [hV0, if_false] at h
        have hp : p = addW V sizeof_bb := by
          split at h
          · split at h
            · simp at h
            · split at h
              · simp at h
              · simp at h; exact h.2.symm
          · split at h
            · simp at h
            · simp at h; exact h.2.symm
        subst hp
        constructor
        · constructor
          · intro h0; exact absurd h0 hpne
          · intro h0; simp at h0; exact absurd h0 hV0
        · intro h0; exact absurd h0 hpne
  · intro m0 base N k hN hfits
    refine ⟨?_, mem_alloc_one_after_init m0 base N k mem_fit_worst hN hfits⟩
    simp [mem_alloc, mem_fit, mem_fit_worst]

/-! ## Alignment of the blocks in reachable states -/

theorem Closed.wr_size {S : Nat → Prop} {m : Mem} (hc : Closed S m) (a v : Nat)
    (ha : a % ALIGNMENT = sizeof_bb) : Closed S (wr m a v) := by
  refine ⟨hc.1, ?_⟩
  intro b hb
  have hb1 := (hc.1 b hb).1
  have hne : b + next_off ≠ a := by
    unfold ALIGNMENT sizeof_bb at ha hb1
    unfold next_off
    omega
  rw [rd_wr_ne _ _ _ _ hne]
  exact hc.2 b hb

theorem Closed.wr_next_new {S : Nat → Prop} {m : Mem} (hc : Closed S m) (a v : Nat)
    (ha : a % ALIGNMENT = sizeof_bb ∧ a < W) (hv : v = 0 ∨ S v ∨ v = a) :
    Closed (fun x => S x ∨ x = a) (wr m (a + next_off) v) := by
  have hvW : v < W := by
    rcases hv with h | h | h
    · subst h; unfold W; omega
    · exact (hc.1 v h).2
    · subst h; exact ha.2
  constructor
  · intro b hb
    rcases hb with hb | hb
    · exact hc.1 b hb
    · subst hb; exact ha
  · intro b hb
    by_cases hba : b = a
    · subst hba
      rw [rd_wr_of_lt _ _ _ hvW]
      rcases hv with h | h | h
      · exact Or.inl h
      · exact Or.inr (Or.inl h)
      · exact Or.inr (Or.inr h)
    · have hne : b + next_off ≠ a + next_off := by omega
      rw [rd_wr_ne _ _ _ _ hne]
      have hbS : S b := by
        rcases hb with hb | hb
        · exact hb
        · exact absurd hb hba
      rcases hc.2 b hbS with h | h
      · exact Or.inl h
      · exact Or.inr (Or.inl h)

theorem Closed.wr_next {S : Nat → Prop} {m : Mem} (hc : Closed S m) (a v : Nat)
    (ha : S a) (hv : v = 0 ∨ S v) : Closed S (wr m (a + next_off) v) := by
  have h := hc.wr_next_new a v (hc.1 a ha) (by tauto)
  have e : (fun x => S x ∨ x = a) = S := by
    funext x
    apply propext
    constructor
    · rintro (h | h)
      · exact h
      · subst h; exact ha
    · intro h; exact Or.inl h
  rw [e] at h
  exact h

theorem free_search_sound (P : Nat → Prop) (m : Mem) (new : Nat)
    (hnext : ∀ a, P a → a ≠ 0 → P (rd m (a + next_off))) :
    ∀ (fuel p1 p2 q1 q2 : Nat), P p1 → P p2 →
      free_search fuel m new p1 p2 = some (q1, q2) → P q1 ∧ P q2 := by
  intro fuel
  induction fuel with
  | zero => intro p1 p2 q1 q2 _ _ h; simp [free_search] at h
  | succ k ih =>
    intro p1 p2 q1 q2 h1 h2 h
    simp only [free_search] at h
    split at h
    · rename_i hcond
      split at h
      · simp at h
      · rename_i hp1
        exact ih _ _ q1 q2 (hnext p1 h1 hp1) (hnext p2 h2 hcond.1) h
    · simp at h
      obtain ⟨e1, e2⟩ := h
      subst e1; subst e2
      exact ⟨h1, h2⟩

theorem free_find_sound {S : Nat → Prop} {m : Mem} (hc : Closed S m)
    (fuel first new q1 q2 : Nat) (hfirst : S first) (hnew : S new)
    (h : free_find fuel m first new = some (q1, q2)) :
    (q1 = 0 ∨ S q1) ∧ (q2 = 0 ∨ S q2) := by
  have hnext : ∀ a, (a = 0 ∨ S a) → a ≠ 0 → (rd m (a + next_off) = 0 ∨ S (rd m (a + next_off))) := by
    intro a ha ha0
    rcases ha with h0 | hS
    · exact absurd h0 ha0
    · exact hc.2 a hS
  unfold free_find at h
  simp only at h
  split at h
  · simp at h
  · split at h
    · simp at h
      obtain ⟨e1, e2⟩ := h
      subst e1; subst e2
      exact ⟨Or.inr hfirst, Or.inr hnew⟩
    · split at h
      · rename_i hne _ hp
        exact free_search_sound (fun a => a = 0 ∨ S a) m new hnext fuel _ _ q1 q2
          (Or.inr hfirst) (hnext first (Or.inr hfirst) hne) h
      · rename_i hne _ _
        simp at h
        obtain ⟨e1, e2⟩ := h
        subst e1; subst e2
        exact ⟨Or.inr hfirst, hnext first (Or.inr hfirst) hne⟩

theorem fusion_closed {S : Nat → Prop} {m m' : Mem} (hc : Closed S m)
    (p1 p2 new : Nat) (h1 : S p1) (h2 : p2 = 0 ∨ S p2) (hnew : S new)
    (h : fusion m p1 p2 new = some m') : Closed S m' := by
  unfold fusion at h
  simp only at h
  have a1 := (hc.1 p1 h1).1
  have anew := (hc.1 new hnew).1
  split at h
  · simp at h
  · split at h
    · split at h
      · simp at h
      · rename_i hp2
        simp at h
        subst h
        have hS2 : S p2 := by
          rcases h2 with h0 | hS
          · exact absurd h0 hp2
          · exact hS
        have hc2 := (hc.wr_size p1 (addW (rd m p1) (rd m p1)) a1).wr_size p1
          (addW (rd (wr m p1 (addW (rd m p1) (rd m p1))) p1)
            (rd (wr m p1 (addW (rd m p1) (rd m p1))) p2)) a1
        exact hc2.wr_next p1 _ h1 (hc2.2 p2 hS2)
    · split at h
      · have hc1 := hc.wr_size new (addW (rd m new) (rd m p1)) anew
        split at h
        · simp at h
          subst h
          exact hc1.wr_next new _ hnew (hc1.2 p1 h1)
        · split at h
          · rename_i hp2
            simp at h
            subst h
            have hS2 : S p2 := by
              rcases h2 with h0 | hS
              · exact absurd h0 hp2.1
              · exact hS
            exact hc1.wr_next new _ hnew (hc1.2 p2 hS2)
          · simp at h
            subst h
            exact hc1.wr_next new 0 hnew (Or.inl rfl)
      · simp at h
        subst h
        exact hc

theorem free_link_closed {S : Nat → Prop} {m m' : Mem} (hc : Closed S m)
    (new p1 p2 : Nat) (h1 : p1 = 0 ∨ S p1) (h2 : p2 = 0 ∨ S p2) (hnew : S new)
    (h : free_link m new p1 p2 = some m') : Closed S m' := by
  unfold free_link at h
  split at h
  · simp at h
  · rename_i hp1
    have hS1 : S p1 := by
      rcases h1 with h0 | hS
      · exact absurd h0 hp1
      · exact hS
    split at h
    · split at h
      · simp at h
        subst h
        exact hc.wr_next new p1 hnew (Or.inr hS1)
      · simp at h
        subst h
        exact (hc.wr_next p1 new hS1 (Or.inr hnew)).wr_next new p2 hnew h2
    · exact fusion_closed hc p1 p2 new hS1 h2 hnew h
theorem mem_init_alignInv (m0 : Mem) (base N : Nat) (hb : base % ALIGNMENT = 0) :
    AlignInv (mem_init m0 base N) [] := by
  refine ⟨rfl, fun x => x = addW base sizeof_allocator_header, ?_, rfl, ?_⟩
  · have hal : addW base sizeof_allocator_header % ALIGNMENT = sizeof_bb ∧
        addW base sizeof_allocator_header < W := by
      unfold addW sizeof_allocator_header ALIGNMENT sizeof_bb W at *
      omega
    constructor
    · intro a ha; subst ha; exact hal
    · intro a ha
      subst ha
      left
      show rd (wr _ _ 0) _ = 0
      rw [rd_wr_same]
      rfl
  · intro p hp; simp at hp

theorem mem_alloc_alignInv (fuel : Nat) (σ σ' : State) (L : List Nat) (n p : Nat)
    (hinv : AlignInv σ L) (h : mem_alloc fuel σ n = some (σ', p)) :
    AlignInv σ' L ∧
    (p ≠ 0 → AlignInv σ' (p :: L) ∧ p % ALIGNMENT = 0 ∧
      ∃ V, mem_fit_first fuel σ.mem σ.first (alloc_size n) = some V ∧ V ≠ 0 ∧
        p = V + sizeof_bb) := by
  obtain ⟨hfit, S, hc, hfirst, hlive⟩ := hinv
  rcases mem_alloc_first_fit_cases fuel σ σ' n p hfit h with
    ⟨_, hσ, hp⟩ | ⟨V, hV, hV0, hne, hbig, hfb, hpV, hσ⟩
  · subst hσ
    exact ⟨⟨hfit, S, hc, hfirst, hlive⟩, fun hp0 => absurd hp hp0⟩
  · have hmod := alloc_size_mod n
    have hlt := alloc_size_lt n
    -- the chosen block is a member of the closed set
    have hSV : S V := by
      have hnext : ∀ a, (a = 0 ∨ S a) → a ≠ 0 →
          (rd σ.mem (a + next_off) = 0 ∨ S (rd σ.mem (a + next_off))) := by
        intro a ha ha0
        rcases ha with h0 | hS
        · exact absurd h0 ha0
        · exact hc.2 a hS
      simp only [mem_fit_first, hne, if_false] at hV
      rcases (fit_first_loop_sound (fun a => a = 0 ∨ S a) σ.mem (alloc_size n) hnext
        fuel σ.first V (Or.inr hfirst) hV).1 with h0 | hS
      · exact absurd h0 hV0
      · exact hS
    obtain ⟨hVal, hVlt⟩ := hc.1 V hSV
    have hfb2 : addW V (alloc_size n) % ALIGNMENT = sizeof_bb ∧
        addW V (alloc_size n) < W := by
      unfold addW ALIGNMENT sizeof_bb W at *
      omega
    have hclosed : Closed (fun x => S x ∨ x = addW V (alloc_size n)) σ'.mem := by
      rw [hσ]
      have hc2 := (hc.wr_size V (alloc_size n) hVal).wr_size (addW V (alloc_size n))
        (rd σ.mem V - alloc_size n) hfb2.1
      have hvn : rd σ.mem (V + next_off) = 0 ∨ S (rd σ.mem (V + next_off)) ∨
          rd σ.mem (V + next_off) = addW V (alloc_size n) := by
        rcases hc.2 V hSV with h0 | hS
        · exact Or.inl h0
        · exact Or.inr (Or.inl hS)
      exact hc2.wr_next_new (addW V (alloc_size n)) _ hfb2 hvn
    have hfit' : σ'.fit = mem_fit_first := by rw [hσ]; exact hfit
    have hfirst' : S σ'.first ∨ σ'.first = addW V (alloc_size n) := by
      rw [hσ]
      show S (if σ.first = V then addW V (alloc_size n) else σ.first) ∨
        (if σ.first = V then addW V (alloc_size n) else σ.first) = addW V (alloc_size n)
      split
      · exact Or.inr rfl
      · exact Or.inl hfirst
    refine ⟨⟨hfit', _, hclosed, hfirst', fun q hq => Or.inl (hlive q hq)⟩, ?_⟩
    intro hp0
    have hpV' : p = V + sizeof_bb := by
      rw [hpV] at hp0 ⊢
      unfold addW ALIGNMENT sizeof_bb W at *
      omega
    have hpal : p % ALIGNMENT = 0 := by
      rw [hpV']
      unfold ALIGNMENT sizeof_bb at *
      omega
    have hsub : subW p sizeof_bb = V := by
      rw [hpV]
      exact subW_addW_cancel V sizeof_bb hVlt (by unfold sizeof_bb W; omega)
    refine ⟨⟨hfit', _, hclosed, hfirst', ?_⟩, hpal, V, hV, hV0, hpV'⟩
    intro q hq
    rcases List.mem_cons.mp hq with h' | h'
    · subst h'; rw [hsub]; exact Or.inl hSV
    · exact Or.inl (hlive q h')

theorem mem_free_alignInv (fuel : Nat) (σ σ' : State) (L : List Nat) (p : Nat)
    (hinv : AlignInv σ L) (hp : p ∈ L) (h : mem_free fuel σ p = some σ') :
    AlignInv σ' (L.erase p) := by
  obtain ⟨hfit, S, hc, hfirst, hlive⟩ := hinv
  have hnew := hlive p hp
  have hlive' : ∀ q ∈ L.erase p, S (subW q sizeof_bb) :=
    fun q hq => hlive q (List.mem_of_mem_erase hq)
  have hc1 := hc.wr_size (subW p sizeof_bb) (rd σ.mem (subW p sizeof_bb))
    (hc.1 _ hnew).1
  unfold mem_free at h
  simp only at h
  split at h
  · simp at h
  · split at h
    · simp at h
    · rename_i q1 q2 hfind
      have hq := free_find_sound hc1 fuel σ.first _ q1 q2 hfirst hnew hfind
      split at h
      · simp at h
      · rename_i m2 hlink
        have hc2 := free_link_closed hc1 _ q1 q2 hq.1 hq.2 hnew hlink
        split at h
        · simp at h
          subst h
          exact ⟨hfit, S, hc2, hnew, hlive'⟩
        · simp at h
          subst h
          exact ⟨hfit, S, hc2, hfirst, hlive'⟩

theorem Reach.alignInv {m0 : Mem} {base N : Nat} (hb : base % ALIGNMENT = 0)
    {σ : State} {L : List Nat} (hr : Reach m0 base N σ L) : AlignInv σ L := by
  induction hr with
  | init => exact mem_init_alignInv m0 base N hb
  | alloc_ok _ h hp ih => exact ((mem_alloc_alignInv _ _ _ _ _ _ ih h).2 hp).1
  | alloc_null _ h ih => exact (mem_alloc_alignInv _ _ _ _ _ _ ih h).1
  | free _ hp h ih => exact mem_free_alignInv _ _ _ _ _ ih hp h

/-- C6. In every state reachable from `mem_init(base, N)` with `base` a multiple of
`ALIGNMENT`, by `mem_alloc` / `mem_free` calls under first fit (frees of live pointers
only), every non-null pointer `mem_alloc` returns is the address of the block chosen by
the placement function plus `sizeof(struct bb)`, and is a multiple of `ALIGNMENT`. -/
theorem mem_alloc_payload_address (m0 : Mem) (base N : Nat) (σ σ' : State) (L : List Nat)
    (fuel n p : Nat) (hb : base % ALIGNMENT = 0) (hr : Reach m0 base N σ L)
    (h : mem_alloc fuel σ n = some (σ', p)) (hp : p ≠ 0) :
    (∃ V, σ.fit fuel σ.mem σ.first (alloc_size n) = some V ∧ V ≠ 0 ∧ p = V + sizeof_bb) ∧
    p % ALIGNMENT = 0 := by
  have hinv := hr.alignInv hb
  obtain ⟨_, hal, V, hV, hV0, hpV⟩ := (mem_alloc_alignInv fuel σ σ' L n p hinv h).2 hp
  refine ⟨⟨V, ?_, hV0, hpV⟩, hal⟩
  rw [hinv.1]; exact hV

/-! ## Well-formed states and the walk -/

theorem Tiles.le {m : Mem} : ∀ {bs : List (Nat × Nat)} {a e : Nat}, Tiles m a bs e → a ≤ e := by
  intro bs
  induction bs with
  | nil => intro a e h; exact Nat.le_of_eq h
  | cons b l ih =>
    intro a e h
    obtain ⟨_, _, _, h4⟩ := h
    have := ih h4
    omega

theorem Tiles.mem {m : Mem} : ∀ {bs : List (Nat × Nat)} {a e : Nat}, Tiles m a bs e →
    ∀ b ∈ bs, a ≤ b.1 ∧ b.1 + b.2 ≤ e ∧ rd m b.1 = b.2 ∧ 0 < b.2 := by
  intro bs
  induction bs with
  | nil => intro a e _ b hb; simp at hb
  | cons c l ih =>
    intro a e h b hb
    obtain ⟨h1, h2, h3, h4⟩ := h
    rcases List.mem_cons.mp hb with hbc | hbl
    · subst hbc
      have := Tiles.le h4
      exact ⟨by omega, by omega, by rw [h1]; exact h3, h2⟩
    · obtain ⟨i1, i2, i3, i4⟩ := ih h4 b hbl
      exact ⟨by omega, i2, i3, i4⟩

theorem Tiles.sorted {m : Mem} : ∀ {bs : List (Nat × Nat)} {a e : Nat}, Tiles m a bs e →
    (bs.map Prod.fst).Pairwise (fun x y => x < y) := by
  intro bs
  induction bs with
  | nil => intro a e _; simp
  | cons c l ih =>
    intro a e h
    obtain ⟨h1, h2, _, h4⟩ := h
    simp only [List.map_cons, List.pairwise_cons]
    refine ⟨?_, ih h4⟩
    intro y hy
    obtain ⟨b, hb, rfl⟩ := List.mem_map.mp hy
    have := (Tiles.mem h4 b hb).1
    omega

/-- The loop of `mem_show` on a tiled range whose free list is a sublist of the blocks. -/
theorem show_loop_tiles (m : Mem) (e : Nat) (he : e < W) :
    ∀ (bs : List (Nat × Nat)) (fuel a libre : Nat) (ns : List Nat),
      Tiles m a bs e → 0 < a → Chain m libre ns → ns.Sublist (bs.map Prod.fst) →
      bs.length < fuel →
      show_loop fuel m a libre e =
        some (bs.map (fun b => (b.1, b.2, if b.1 ∈ ns then 1 else 0))) := by
  intro bs
  induction bs with
  | nil =>
    intro fuel a libre ns ht _ _ _ hf
    cases fuel with
    | zero => simp at hf
    | succ k =>
      have : a = e := ht
      subst this
      simp [show_loop]
  | cons b l ih =>
    intro fuel a libre ns ht ha hc hs hf
    cases fuel with
    | zero => simp at hf
    | succ k =>
      have hk : l.length < k := by simpa using hf
      have hsorted := Tiles.sorted ht
      obtain ⟨h1, h2, h3, h4⟩ := ht
      have hle := Tiles.le h4
      have hlt : a < e := by omega
      have ha0 : a ≠ 0 := by omega
      have hadd : addW a b.2 = a + b.2 := by
        unfold addW; exact Nat.mod_eq_of_lt (by omega)
      -- every block of the tail lies above `a`
      have habove : ∀ x ∈ l.map Prod.fst, a < x := by
        intro x hx
        obtain ⟨c, hc', rfl⟩ := List.mem_map.mp hx
        have := (Tiles.mem h4 c hc').1
        omega
      simp only [show_loop, hlt, ha0, if_true, if_false, h3, hadd]
      by_cases hlib : libre = a
      · -- the block is the head of the free list
        subst hlib
        cases ns with
        | nil => exact absurd hc ha0
        | cons n ns' =>
          obtain ⟨c1, c2, c3⟩ := hc
          subst c1
          have hs' : ns'.Sublist (l.map Prod.fst) := by
            simp only [List.map_cons] at hs
            cases hs with
            | cons _ h' => exact (List.sublist_cons_self _ _).trans h'
            | cons₂ _ h' => exact h'
          have hnot : ∀ c ∈ l, (c.1 ∈ libre :: ns' ↔ c.1 ∈ ns') := by
            intro c hc'
            have := habove c.1 (List.mem_map_of_mem _ hc')
            simp only [List.mem_cons]
            constructor
            · rintro (h | h)
              · omega
              · exact h
            · intro h; exact Or.inr h
          rw [ih k (libre + b.2) _ ns' h4 (by omega) c3 hs' hk]
          simp only [if_true, Option.map_some', List.map_cons, h1, List.mem_cons, true_or]
          congr 1
          congr 1
          apply List.map_congr_left
          intro c hc'
          have := hnot c hc'
          simp only [List.mem_cons] at this
          simp only [this]
      · -- the block is occupied: it is not a node
        have hs' : ns.Sublist (l.map Prod.fst) := by
          simp only [List.map_cons] at hs
          cases hs with
          | cons _ h' => exact h'
          | cons₂ _ h' =>
            exfalso
            obtain ⟨c1, _, _⟩ := hc
            exact hlib (by rw [c1, h1])
        have hnotin : b.1 ∉ ns := by
          intro hin
          have := habove b.1 (hs'.subset hin)
          omega
        rw [ih k (a + b.2) libre ns h4 (by omega) hc hs' hk]
        have hnotin' : a ∉ ns := h1 ▸ hnotin
        simp [hlib, hnotin', h1]

/-- C13. In a well-formed state (blocks of positive size tiling the range from
`memory_addr + sizeof(struct allocator_header)` to `memory_addr + memory_size`, free list
address-sorted and made of blocks), `mem_show` terminates (fuel for one step per block is
enough) and calls `print` exactly once per block, in physical order, with the address of
the block and its `size` field, the flag being 1 exactly for the blocks that are nodes of
the free list; the addresses passed are strictly ascending. -/
theorem mem_show_walk (σ : State) (bs : List (Nat × Nat)) (nodes : List Nat) (fuel : Nat)
    (hwf : WellFormed σ bs nodes) (hf : bs.length < fuel) :
    mem_show fuel σ = some (bs.map (fun b => (b.1, b.2, if b.1 ∈ nodes then 1 else 0))) ∧
    (bs.map Prod.fst).Pairwise (fun x y => x < y) ∧
    (∀ b ∈ bs, rd σ.mem b.1 = b.2) := by
  obtain ⟨hW, ht, hc, hs⟩ := hwf
  have hle := Tiles.le ht
  have h1 : addW σ.memory_addr sizeof_allocator_header
      = σ.memory_addr + sizeof_allocator_header := by
    unfold addW; exact Nat.mod_eq_of_lt (by omega)
  have h2 : addW σ.memory_addr σ.memory_size = σ.memory_addr + σ.memory_size := by
    unfold addW; exact Nat.mod_eq_of_lt hW
  refine ⟨?_, Tiles.sorted ht, fun b hb => (Tiles.mem ht b hb).2.2.1⟩
  unfold mem_show
  rw [h1, h2]
  exact show_loop_tiles σ.mem _ hW bs fuel _ σ.first nodes ht
    (by unfold sizeof_allocator_header; omega) hc hs hf

/-! ## Allocations released in stack order -/

theorem wr_below (m : Mem) (a v x : Nat) (h : x < a) : wr m a v x = m x := by
  simp [wr, Nat.ne_of_lt h]

theorem mem_init_tailState (m0 : Mem) (base N : Nat) (hN : sizeof_allocator_header ≤ N)
    (hfits : base + N < W) :
    TailState (mem_init m0 base N) (base + sizeof_allocator_header)
      (N - sizeof_allocator_header) (base + N) := by
  unfold sizeof_allocator_header at *
  have hfirst : addW base 24 = base + 24 := by
    unfold addW; exact Nat.mod_eq_of_lt (by omega)
  have hsz : subW N 24 = N - 24 := by
    unfold subW; unfold W at hfits ⊢; omega
  refine ⟨rfl, hfirst, ?_, ?_, by omega, by omega, by omega⟩
  · show rd (wr (wr m0 (addW base 24) (subW N 24)) (addW base 24 + next_off) 0) (base + 24) = _
    rw [hfirst, hsz, rd_wr_ne _ _ _ _ (by unfold next_off; omega)]
    exact rd_wr_of_lt _ _ _ (by omega)
  · show rd (wr (wr m0 (addW base 24) (subW N 24)) (addW base 24 + next_off) 0) _ = _
    rw [hfirst, rd_wr_same]
    rfl

/-- A successful `mem_alloc` on a one-node free list carves the block at the node. -/
theorem mem_alloc_tailState (fuel : Nat) (σ σ' : State) (t s E n p : Nat)
    (hts : TailState σ t s E) (h : mem_alloc fuel σ n = some (σ', p)) (hp : p ≠ 0) :
    16 ≤ alloc_size n ∧ alloc_size n + 8 ≤ s ∧
    TailState σ' (t + alloc_size n) (s - alloc_size n) E ∧
    p = t + sizeof_bb ∧ rd σ'.mem t = alloc_size n ∧ ∀ a, a < t → σ'.mem a = σ.mem a := by
  obtain ⟨hfit, hfirst, hsize, hnext, ht0, hE, hEW⟩ := hts
  have hmod := alloc_size_mod n
  have hlt := alloc_size_lt n
  rcases mem_alloc_first_fit_cases fuel σ σ' n p hfit h with
    ⟨_, _, hp0⟩ | ⟨V, hV, hV0, hne, hbig, hfb, hpV, hσ⟩
  · exact absurd hp0 hp
  · -- the chosen block is the only node
    have hVt : V = t := by
      simp only [mem_fit_first, hne, if_false] at hV
      have hnx : ∀ a, (a = t ∨ a = 0) → a ≠ 0 →
          (rd σ.mem (a + next_off) = t ∨ rd σ.mem (a + next_off) = 0) := by
        intro a ha ha0
        rcases ha with h1 | h1
        · subst h1; exact Or.inr hnext
        · exact absurd h1 ha0
      rcases (fit_first_loop_sound (fun a => a = t ∨ a = 0) σ.mem (alloc_size n) hnx
        fuel σ.first V (Or.inl hfirst) hV).1 with h1 | h1
      · exact h1
      · exact absurd h1 hV0
    subst hVt
    rw [hsize] at hbig
    have h16 : 16 ≤ alloc_size n := by omega
    have hadd : addW V (alloc_size n) = V + alloc_size n := by
      unfold addW; exact Nat.mod_eq_of_lt (by omega)
    have hp8 : addW V sizeof_bb = V + sizeof_bb := by
      unfold addW sizeof_bb; exact Nat.mod_eq_of_lt (by omega)
    rw [hadd, hsize, hnext] at hσ
    rw [hfirst] at hσ
    simp only [if_true] at hσ
    subst hσ
    refine ⟨h16, hbig, ⟨hfit, rfl, ?_, ?_, by omega, by omega, hEW⟩, by rw [hpV, hp8], ?_, ?_⟩
    · show rd (wr (wr (wr σ.mem V (alloc_size n)) (V + alloc_size n) (s - alloc_size n))
        (V + alloc_size n + next_off) 0) (V + alloc_size n) = _
      rw [rd_wr_ne _ _ _ _ (by unfold next_off; omega)]
      exact rd_wr_of_lt _ _ _ (by omega)
    · show rd (wr (wr (wr σ.mem V (alloc_size n)) (V + alloc_size n) (s - alloc_size n))
        (V + alloc_size n + next_off) 0) (V + alloc_size n + next_off) = _
      rw [rd_wr_same]; rfl
    · show rd (wr (wr (wr σ.mem V (alloc_size n)) (V + alloc_size n) (s - alloc_size n))
        (V + alloc_size n + next_off) 0) V = _
      rw [rd_wr_ne _ _ _ _ (by unfold next_off; omega), rd_wr_ne _ _ _ _ (by omega)]
      exact rd_wr_of_lt _ _ _ (by omega)
    · intro a ha
      show wr (wr (wr σ.mem V (alloc_size n)) (V + alloc_size n) (s - alloc_size n))
        (V + alloc_size n + next_off) 0 a = _
      rw [wr_below _ _ _ _ (by omega), wr_below _ _ _ _ (by omega), wr_below _ _ _ _ ha]

/-- Releasing the block that lies just below the only node of the free list merges the
two: the free list is again one node, at the address of the block. -/
theorem mem_free_tailState (k : Nat) (σ : State) (t s E need : Nat)
    (hts : TailState σ (t + need) (s - need) E) (ht0 : 0 < t) (hneed : 0 < need)
    (hle : need + 8 ≤ s) (hsz : rd σ.mem t = need) :
    ∃ σ', mem_free k σ (t + sizeof_bb) = some σ' ∧ TailState σ' t s E ∧
      ∀ a, a < t → σ'.mem a = σ.mem a := by
  obtain ⟨hfit, hfirst, hsize, hnext, _, hE, hEW⟩ := hts
  have htW : t + s ≤ W := by omega
  have hnew : subW (t + sizeof_bb) sizeof_bb = t := by
    unfold subW sizeof_bb; unfold W at htW ⊢; omega
  have hm1 : wr σ.mem t (rd σ.mem t) = wr σ.mem t need := by rw [hsz]
  have hrd_t : rd (wr σ.mem t need) t = need := rd_wr_of_lt _ _ _ (by omega)
  have hrd_p1 : rd (wr σ.mem t need) (t + need) = s - need := by
    rw [rd_wr_ne _ _ _ _ (by omega)]; exact hsize
  have hrd_p1n : rd (wr σ.mem t need) (t + need + next_off) = 0 := by
    rw [rd_wr_ne _ _ _ _ (by omega)]; exact hnext
  have hadd1 : addW t need = t + need := by
    unfold addW; exact Nat.mod_eq_of_lt (by omega)
  have hsum : addW need (s - need) = s := by
    unfold addW
    rw [Nat.mod_eq_of_lt (by omega)]
    omega
  have hfind : free_find k (wr σ.mem t need) (t + need) t = some (t + need, t) := by
    unfold free_find
    have : t + need ≠ 0 := by omega
    simp only [this, if_false, hrd_t, hadd1, if_true]
  have hfus : fusion (wr σ.mem t need) (t + need) t t =
      some (wr (wr (wr σ.mem t need) t s) (t + next_off) 0) := by
    unfold fusion
    have h1 : t + need ≠ 0 := by omega
    have h2 : ¬ (t = addW (t + need) (s - need) ∧ t + need = t) := by
      rintro ⟨_, h⟩
      omega
    have hx : rd (wr (wr σ.mem t need) t s) (t + need + next_off) = 0 := by
      rw [rd_wr_ne _ _ _ _ (by omega)]; exact hrd_p1n
    simp only [h1, if_false, hrd_t, hadd1, hrd_p1, h2, if_true, hsum, hx]
  have hlink : free_link (wr σ.mem t need) t (t + need) t =
      some (wr (wr (wr σ.mem t need) t s) (t + next_off) 0) := by
    unfold free_link
    have h1 : t + need ≠ 0 := by omega
    simp only [h1, if_false, ne_eq, not_true_eq_false, and_false, hfus]
  have hsub : subW (t + need) need = t := by
    rw [subW_of_le _ _ (by omega) (by omega)]; omega
  refine ⟨{ σ with first := t, mem := wr (wr (wr σ.mem t need) t s) (t + next_off) 0 }, ?_,
    ⟨hfit, rfl, ?_, ?_, ht0, by omega, hEW⟩, ?_⟩
  · unfold mem_free
    have ht : t ≠ 0 := by omega
    simp only [hnew, ht, if_false, hm1, hfirst, hfind, hlink, hsz, hsub, le_refl, if_true]
  · show rd (wr (wr (wr σ.mem t need) t s) (t + next_off) 0) t = s
    rw [rd_wr_ne _ _ _ _ (by unfold next_off; omega)]
    exact rd_wr_of_lt _ _ _ (by omega)
  · show rd (wr (wr (wr σ.mem t need) t s) (t + next_off) 0) (t + next_off) = 0
    rw [rd_wr_same]; rfl
  · intro a ha
    show wr (wr (wr σ.mem t need) t s) (t + next_off) 0 a = σ.mem a
    rw [wr_below _ _ _ _ (by omega), wr_below _ _ _ _ ha, wr_below _ _ _ _ ha]

theorem free_seq_nil (k : Nat) (σ : State) : free_seq k σ [] = some σ := rfl

theorem free_seq_cons (k : Nat) (σ : State) (p : Nat) (rest : List Nat) :
    free_seq k σ (p :: rest) = (mem_free k σ p).bind (fun σ1 => free_seq k σ1 rest) := rfl

theorem free_seq_append (k : Nat) : ∀ (ps qs : List Nat) (σ : State),
    free_seq k σ (ps ++ qs) = (free_seq k σ ps).bind (fun σ1 => free_seq k σ1 qs) := by
  intro ps
  induction ps with
  | nil => intro qs σ; simp [free_seq]
  | cons p l ih =>
    intro qs σ
    simp only [List.cons_append, free_seq]
    cases mem_free k σ p with
    | none => simp
    | some σ1 => simp [ih]

/-- Allocations made one after the other on a one-node free list are undone by releasing
the pointers in the reverse order. -/
theorem stack_restore (fuel k : Nat) : ∀ (reqs : List Nat) (σ σ2 : State) (t s E : Nat)
    (ps : List Nat), TailState σ t s E → alloc_seq fuel σ reqs = some (σ2, ps) →
    ∃ σ3, free_seq k σ2 ps = some σ3 ∧ TailState σ3 t s E ∧
      ∀ a, a < t → σ3.mem a = σ.mem a := by
  intro reqs
  induction reqs with
  | nil =>
    intro σ σ2 t s E ps hts h
    simp only [alloc_seq, Option.some.injEq, Prod.mk.injEq] at h
    obtain ⟨h1, h2⟩ := h
    subst h1; subst h2
    exact ⟨σ, rfl, hts, fun _ _ => rfl⟩
  | cons n rest ih =>
    intro σ σ2 t s E ps hts h
    simp only [alloc_seq] at h
    cases ha : mem_alloc fuel σ n with
    | none => simp [ha] at h
    | some r =>
      obtain ⟨σ1, p⟩ := r
      simp only [ha] at h
      by_cases hp : p = 0
      · simp [hp] at h
      · simp only [hp, if_false] at h
        cases hr : alloc_seq fuel σ1 rest with
        | none => simp [hr] at h
        | some r2 =>
          obtain ⟨σ2', ps'⟩ := r2
          simp only [hr, Option.map_some', Option.some.injEq, Prod.mk.injEq] at h
          obtain ⟨h1, h2⟩ := h
          subst h1; subst h2
          obtain ⟨h16, hle, hts1, hpt, hsz, hframe⟩ :=
            mem_alloc_tailState fuel σ σ1 t s E n p hts ha hp
          obtain ⟨σ3', hfree', hts3', hframe'⟩ := ih σ1 σ2' _ _ E ps' hts1 hr
          have hsz3 : rd σ3'.mem t = alloc_size n := by
            unfold rd at hsz ⊢
            rw [hframe' t (by omega)]; exact hsz
          obtain ⟨σ3, hfree, hts3, hframe3⟩ :=
            mem_free_tailState k σ3' t s E (alloc_size n) hts3' hts.2.2.2.2.1 (by omega) hle hsz3
          refine ⟨σ3, ?_, hts3, ?_⟩
          · rw [free_seq_append, hfree', Option.some_bind, free_seq_cons, hpt, hfree,
              Option.some_bind, free_seq_nil]
          · intro a ha'
            rw [hframe3 a ha', hframe' a (by omega), hframe a ha']

theorem alloc_seq_tailState (fuel : Nat) : ∀ (reqs : List Nat) (σ σ2 : State) (t s E : Nat)
    (ps : List Nat), TailState σ t s E → alloc_seq fuel σ reqs = some (σ2, ps) →
    ∃ t2 s2, TailState σ2 t2 s2 E := by
  intro reqs
  induction reqs with
  | nil =>
    intro σ σ2 t s E ps hts h
    simp only [alloc_seq, Option.some.injEq, Prod.mk.injEq] at h
    obtain ⟨h1, _⟩ := h
    subst h1
    exact ⟨t, s, hts⟩
  | cons n rest ih =>
    intro σ σ2 t s E ps hts h
    simp only [alloc_seq] at h
    cases ha : mem_alloc fuel σ n with
    | none => simp [ha] at h
    | some r =>
      obtain ⟨σ1, p⟩ := r
      simp only [ha] at h
      by_cases hp : p = 0
      · simp [hp] at h
      · simp only [hp, if_false] at h
        cases hr : alloc_seq fuel σ1 rest with
        | none => simp [hr] at h
        | some r2 =>
          obtain ⟨σ2', ps'⟩ := r2
          simp only [hr, Option.map_some', Option.some.injEq, Prod.mk.injEq] at h
          obtain ⟨h1, _⟩ := h
          subst h1
          exact ih σ1 σ2' _ _ E ps' (mem_alloc_tailState fuel σ σ1 t s E n p hts ha hp).2.2.1 hr

theorem TailState.free_list {σ : State} {t s E : Nat} (hts : TailState σ t s E) (j : Nat) :
    free_list (j + 2) σ.mem σ.first = some [(t, s)] := by
  obtain ⟨_, hfirst, hsize, hnext, ht0, _, _⟩ := hts
  have ht : t ≠ 0 := by omega
  rw [hfirst]
  simp only [Allocator.free_list, ht, if_false, hnext, if_true, hsize, Option.map_some']

/-- C20. On a region that can hold its header and lies inside the address space, let `pre`
and then `post` be requests whose `mem_alloc` calls, issued consecutively under first fit
after `mem_init`, all return non-null pointers. Releasing the pointers of `post` in the
reverse order of their allocation returns (whatever the fuel) and leaves the free list
that existed just before the first allocation of `post`: one node, with `next == NULL`.
With `pre` empty this is the list left by `mem_init`: the node at
`base + sizeof(struct allocator_header)` of size `N - sizeof(struct allocator_header)`;
with `pre` the first `i - 1` requests it is the list just before the `i`-th allocation. -/
theorem stack_order_round_trip (m0 : Mem) (base N fuel k : Nat) (pre post : List Nat)
    (σ1 σ2 : State) (ps1 ps2 : List Nat)
    (hN : sizeof_allocator_header ≤ N) (hfits : base + N < W)
    (h1 : alloc_seq fuel (mem_init m0 base N) pre = some (σ1, ps1))
    (h2 : alloc_seq fuel σ1 post = some (σ2, ps2)) :
    ∃ σ3 t s, free_seq k σ2 ps2 = some σ3 ∧
      (∀ j, free_list (j + 2) σ1.mem σ1.first = some [(t, s)]) ∧
      (∀ j, free_list (j + 2) σ3.mem σ3.first = some [(t, s)]) ∧
      (pre = [] → t = base + sizeof_allocator_header ∧ s = N - sizeof_allocator_header) := by
  have h0 := mem_init_tailState m0 base N hN hfits
  obtain ⟨t, s, hts1⟩ := alloc_seq_tailState fuel pre _ σ1 _ _ _ ps1 h0 h1
  obtain ⟨σ3, hfree, hts3, _⟩ := stack_restore fuel k post σ1 σ2 t s _ ps2 hts1 h2
  refine ⟨σ3, t, s, hfree, hts1.free_list, hts3.free_list, ?_⟩
  intro hpre
  subst hpre
  simp only [alloc_seq, Option.some.injEq, Prod.mk.injEq] at h1
  obtain ⟨e1, _⟩ := h1
  subst e1
  obtain ⟨_, hf0, hs0, _⟩ := h0
  obtain ⟨_, hf1, hs1, _⟩ := hts1
  have ht : t = base + sizeof_allocator_header := by rw [← hf1, hf0]
  subst ht
  exact ⟨rfl, by rw [← hs1, hs0]⟩

/-! ## Sizes of the blocks in reachable states -/

theorem ClosedAt.size_store {r : Nat} {S : Nat → Prop} {m : Mem} (hc : ClosedAt r S m) (a v : Nat)
    (ha : a % ALIGNMENT = r) : ClosedAt r S (wr m a v) := by
  refine ⟨hc.1, ?_⟩
  intro b hb
  have hb1 := (hc.1 b hb).1
  have hne : b + next_off ≠ a := by
    unfold ALIGNMENT at ha hb1
    unfold next_off
    omega
  rw [rd_wr_ne _ _ _ _ hne]
  exact hc.2 b hb

theorem ClosedAt.next_store_new {r : Nat} {S : Nat → Prop} {m : Mem} (hc : ClosedAt r S m) (a v : Nat)
    (ha : a % ALIGNMENT = r ∧ a < W) (hv : v = 0 ∨ S v ∨ v = a) :
    ClosedAt r (fun x => S x ∨ x = a) (wr m (a + next_off) v) := by
  have hvW : v < W := by
    rcases hv with h | h | h
    · subst h; unfold W; omega
    · exact (hc.1 v h).2
    · subst h; exact ha.2
  constructor
  · intro b hb
    rcases hb with hb | hb
    · exact hc.1 b hb
    · subst hb; exact ha
  · intro b hb
    by_cases hba : b = a
    · subst hba
      rw [rd_wr_of_lt _ _ _ hvW]
      rcases hv with h | h | h
      · exact Or.inl h
      · exact Or.inr (Or.inl h)
      · exact Or.inr (Or.inr h)
    · have hne : b + next_off ≠ a + next_off := by omega
      rw [rd_wr_ne _ _ _ _ hne]
      have hbS : S b := by
        rcases hb with hb | hb
        · exact hb
        · exact absurd hb hba
      rcases hc.2 b hbS with h | h
      · exact Or.inl h
      · exact Or.inr (Or.inl h)

theorem ClosedAt.next_store {r : Nat} {S : Nat → Prop} {m : Mem} (hc : ClosedAt r S m) (a v : Nat)
    (ha : S a) (hv : v = 0 ∨ S v) : ClosedAt r S (wr m (a + next_off) v) := by
  have h := hc.next_store_new a v (hc.1 a ha) (by tauto)
  have e : (fun x => S x ∨ x = a) = S := by
    funext x
    apply propext
    constructor
    · rintro (h | h)
      · exact h
      · subst h; exact ha
    · intro h; exact Or.inl h
  rw [e] at h
  exact h

theorem free_find_closedAt {r : Nat} {S : Nat → Prop} {m : Mem} (hc : ClosedAt r S m)
    (fuel first new q1 q2 : Nat) (hfirst : S first) (hnew : S new)
    (h : free_find fuel m first new = some (q1, q2)) :
    (q1 = 0 ∨ S q1) ∧ (q2 = 0 ∨ S q2) := by
  have hnext : ∀ a, (a = 0 ∨ S a) → a ≠ 0 → (rd m (a + next_off) = 0 ∨ S (rd m (a + next_off))) := by
    intro a ha ha0
    rcases ha with h0 | hS
    · exact absurd h0 ha0
    · exact hc.2 a hS
  unfold free_find at h
  simp only at h
  split at h
  · simp at h
  · split at h
    · simp at h
      obtain ⟨e1, e2⟩ := h
      subst e1; subst e2
      exact ⟨Or.inr hfirst, Or.inr hnew⟩
    · split at h
      · rename_i hne _ hp
        exact free_search_sound (fun a => a = 0 ∨ S a) m new hnext fuel _ _ q1 q2
          (Or.inr hfirst) (hnext first (Or.inr hfirst) hne) h
      · rename_i hne _ _
        simp at h
        obtain ⟨e1, e2⟩ := h
        subst e1; subst e2
        exact ⟨Or.inr hfirst, hnext first (Or.inr hfirst) hne⟩

theorem fusion_closedAt {r : Nat} {S : Nat → Prop} {m m' : Mem} (hc : ClosedAt r S m)
    (p1 p2 new : Nat) (h1 : S p1) (h2 : p2 = 0 ∨ S p2) (hnew : S new)
    (h : fusion m p1 p2 new = some m') : ClosedAt r S m' := by
  unfold fusion at h
  simp only at h
  have a1 := (hc.1 p1 h1).1
  have anew := (hc.1 new hnew).1
  split at h
  · simp at h
  · split at h
    · split at h
      · simp at h
      · rename_i hp2
        simp at h
        subst h
        have hS2 : S p2 := by
          rcases h2 with h0 | hS
          · exact absurd h0 hp2
          · exact hS
        have hc2 := (hc.size_store p1 (addW (rd m p1) (rd m p1)) a1).size_store p1
          (addW (rd (wr m p1 (addW (rd m p1) (rd m p1))) p1)
            (rd (wr m p1 (addW (rd m p1) (rd m p1))) p2)) a1
        exact hc2.next_store p1 _ h1 (hc2.2 p2 hS2)
    · split at h
      · have hc1 := hc.size_store new (addW (rd m new) (rd m p1)) anew
        split at h
        · simp at h
          subst h
          exact hc1.next_store new _ hnew (hc1.2 p1 h1)
        · split at h
          · rename_i hp2
            simp at h
            subst h
            have hS2 : S p2 := by
              rcases h2 with h0 | hS
              · exact absurd h0 hp2.1
              · exact hS
            exact hc1.next_store new _ hnew (hc1.2 p2 hS2)
          · simp at h
            subst h
            exact hc1.next_store new 0 hnew (Or.inl rfl)
      · simp at h
        subst h
        exact hc

theorem free_link_closedAt {r : Nat} {S : Nat → Prop} {m m' : Mem} (hc : ClosedAt r S m)
    (new p1 p2 : Nat) (h1 : p1 = 0 ∨ S p1) (h2 : p2 = 0 ∨ S p2) (hnew : S new)
    (h : free_link m new p1 p2 = some m') : ClosedAt r S m' := by
  unfold free_link at h
  split at h
  · simp at h
  · rename_i hp1
    have hS1 : S p1 := by
      rcases h1 with h0 | hS
      · exact absurd h0 hp1
      · exact hS
    split at h
    · split at h
      · simp at h
        subst h
        exact hc.next_store new p1 hnew (Or.inr hS1)
      · simp at h
        subst h
        exact (hc.next_store p1 new hS1 (Or.inr hnew)).next_store new p2 hnew h2
    · exact fusion_closedAt hc p1 p2 new hS1 h2 hnew h


theorem Sized.size_write {S : Nat → Prop} {m : Mem} (hs : Sized S m) (a v : Nat)
    (hv : v % ALIGNMENT = 0) : Sized S (wr m a v) := by
  intro b hb
  by_cases hba : b = a
  · subst hba
    rw [rd_wr_same]
    unfold ALIGNMENT W at *
    omega
  · rw [rd_wr_ne _ _ _ _ hba]
    exact hs b hb

theorem Sized.next_write {r : Nat} {S : Nat → Prop} {m : Mem}
    (hres : ∀ b, S b → b % ALIGNMENT = r) (hs : Sized S m)
    (a v : Nat) (ha : a % ALIGNMENT = r) : Sized S (wr m (a + next_off) v) := by
  intro b hb
  have hb1 := hres b hb
  have hne : b ≠ a + next_off := by
    unfold ALIGNMENT at ha hb1
    unfold next_off
    omega
  rw [rd_wr_ne _ _ _ _ hne]
  exact hs b hb

theorem addW_aligned (x y : Nat) (hx : x % ALIGNMENT = 0) (hy : y % ALIGNMENT = 0) :
    addW x y % ALIGNMENT = 0 := by
  unfold addW ALIGNMENT W at *
  omega

theorem fusion_sized {r : Nat} {S : Nat → Prop} {m m' : Mem} (hc : ClosedAt r S m) (hs : Sized S m)
    (p1 p2 new : Nat) (h1 : S p1) (h2 : p2 = 0 ∨ S p2) (hnew : S new)
    (h : fusion m p1 p2 new = some m') : Sized S m' := by
  unfold fusion at h
  simp only at h
  have hres : ∀ b, S b → b % ALIGNMENT = r := fun b hb => (hc.1 b hb).1
  have a1 := (hc.1 p1 h1).1
  have anew := (hc.1 new hnew).1
  split at h
  · simp at h
  · split at h
    · split at h
      · simp at h
      · rename_i hp2
        simp at h
        subst h
        have hS2 : S p2 := by
          rcases h2 with h0 | hS
          · exact absurd h0 hp2
          · exact hS
        have hv1 := addW_aligned _ _ (hs p1 h1) (hs p1 h1)
        have hs1 := hs.size_write p1 (addW (rd m p1) (rd m p1)) hv1
        have hv2 := addW_aligned _ _ (hs1 p1 h1) (hs1 p2 hS2)
        have hs2 := hs1.size_write p1 _ hv2
        exact Sized.next_write hres hs2 p1 _ a1
    · split at h
      · have hv1 := addW_aligned _ _ (hs new hnew) (hs p1 h1)
        have hs1 := hs.size_write new (addW (rd m new) (rd m p1)) hv1
        split at h
        · simp at h
          subst h
          exact Sized.next_write hres hs1 new _ anew
        · split at h
          · simp at h
            subst h
            exact Sized.next_write hres hs1 new _ anew
          · simp at h
            subst h
            exact Sized.next_write hres hs1 new _ anew
      · simp at h
        subst h
        exact hs

theorem free_link_sized {r : Nat} {S : Nat → Prop} {m m' : Mem} (hc : ClosedAt r S m) (hs : Sized S m)
    (new p1 p2 : Nat) (h1 : p1 = 0 ∨ S p1) (h2 : p2 = 0 ∨ S p2) (hnew : S new)
    (h : free_link m new p1 p2 = some m') : Sized S m' := by
  unfold free_link at h
  have hres : ∀ b, S b → b % ALIGNMENT = r := fun b hb => (hc.1 b hb).1
  have anew := (hc.1 new hnew).1
  split at h
  · simp at h
  · rename_i hp1
    have hS1 : S p1 := by
      rcases h1 with h0 | hS
      · exact absurd h0 hp1
      · exact hS
    have a1 := (hc.1 p1 hS1).1
    split at h
    · split at h
      · simp at h
        subst h
        exact Sized.next_write hres hs new p1 anew
      · simp at h
        subst h
        exact Sized.next_write hres (Sized.next_write hres hs p1 new a1) new p2 anew
    · exact fusion_sized hc hs p1 p2 new hS1 h2 hnew h

theorem Sized.size_write_new {S : Nat → Prop} {m : Mem} (hs : Sized S m) (a v : Nat)
    (hv : v % ALIGNMENT = 0) : Sized (fun x => S x ∨ x = a) (wr m a v) := by
  intro b hb
  by_cases hba : b = a
  · subst hba
    rw [rd_wr_same]
    unfold ALIGNMENT W at *
    omega
  · rw [rd_wr_ne _ _ _ _ hba]
    rcases hb with hb | hb
    · exact hs b hb
    · exact absurd hb hba

theorem mem_init_sizeInv (m0 : Mem) (base N : Nat)
    (hN : sizeof_allocator_header ≤ N)
    (hal : (N - sizeof_allocator_header) % ALIGNMENT = 0) :
    SizeInv (mem_init m0 base N) [] := by
  have hfirst : addW base sizeof_allocator_header < W := by
    unfold addW W
    omega
  refine ⟨rfl, addW base sizeof_allocator_header % ALIGNMENT,
    fun x => x = addW base sizeof_allocator_header, ⟨?_, ?_⟩, ?_, rfl, ?_⟩
  · intro a ha; subst ha; exact ⟨rfl, hfirst⟩
  · intro a ha
    subst ha
    left
    show rd (wr _ _ 0) _ = 0
    rw [rd_wr_same]
    rfl
  · intro a ha
    subst ha
    show rd (wr (wr m0 _ (subW N sizeof_allocator_header)) _ 0) _ % ALIGNMENT = 0
    rw [rd_wr_ne _ _ _ _ (by unfold next_off; omega), rd_wr_same]
    unfold subW sizeof_allocator_header ALIGNMENT W at *
    omega
  · intro p hp; simp at hp

theorem mem_alloc_sizeInv (fuel : Nat) (σ σ' : State) (L : List Nat) (n p : Nat)
    (hinv : SizeInv σ L) (h : mem_alloc fuel σ n = some (σ', p)) :
    SizeInv σ' L ∧
    (p ≠ 0 → SizeInv σ' (p :: L) ∧ rd σ'.mem (subW p sizeof_bb) = alloc_size n ∧
      0 < alloc_size n) := by
  obtain ⟨hfit, r, S, hc, hs, hfirst, hlive⟩ := hinv
  rcases mem_alloc_first_fit_cases fuel σ σ' n p hfit h with
    ⟨_, hσ, hp⟩ | ⟨V, hV, hV0, hne, hbig, hfb, hpV, hσ⟩
  · subst hσ
    exact ⟨⟨hfit, r, S, hc, hs, hfirst, hlive⟩, fun hp0 => absurd hp hp0⟩
  · have hmod := alloc_size_mod n
    have hlt := alloc_size_lt n
    have hSV : S V := by
      have hnext : ∀ a, (a = 0 ∨ S a) → a ≠ 0 →
          (rd σ.mem (a + next_off) = 0 ∨ S (rd σ.mem (a + next_off))) := by
        intro a ha ha0
        rcases ha with h0 | hS
        · exact absurd h0 ha0
        · exact hc.2 a hS
      simp only [mem_fit_first, hne, if_false] at hV
      rcases (fit_first_loop_sound (fun a => a = 0 ∨ S a) σ.mem (alloc_size n) hnext
        fuel σ.first V (Or.inr hfirst) hV).1 with h0 | hS
      · exact absurd h0 hV0
      · exact hS
    obtain ⟨hVal, hVlt⟩ := hc.1 V hSV
    have hVsz := hs V hSV
    have hfb2 : addW V (alloc_size n) % ALIGNMENT = r ∧
        addW V (alloc_size n) < W := by
      unfold addW ALIGNMENT W at *
      omega
    have hrem : (rd σ.mem V - alloc_size n) % ALIGNMENT = 0 := by
      unfold ALIGNMENT at *
      omega
    have hclosed : ClosedAt r (fun x => S x ∨ x = addW V (alloc_size n)) σ'.mem := by
      rw [hσ]
      have hc2 := (hc.size_store V (alloc_size n) hVal).size_store (addW V (alloc_size n))
        (rd σ.mem V - alloc_size n) hfb2.1
      have hvn : rd σ.mem (V + next_off) = 0 ∨ S (rd σ.mem (V + next_off)) ∨
          rd σ.mem (V + next_off) = addW V (alloc_size n) := by
        rcases hc.2 V hSV with h0 | hS
        · exact Or.inl h0
        · exact Or.inr (Or.inl hS)
      exact hc2.next_store_new (addW V (alloc_size n)) _ hfb2 hvn
    have hsized : Sized (fun x => S x ∨ x = addW V (alloc_size n)) σ'.mem := by
      rw [hσ]
      have hs1 := hs.size_write V (alloc_size n) (by unfold ALIGNMENT; exact hmod)
      have hs2 := hs1.size_write_new (addW V (alloc_size n)) (rd σ.mem V - alloc_size n) hrem
      exact Sized.next_write (fun b hb => (hclosed.1 b hb).1) hs2 _ _ hfb2.1
    have hfit' : σ'.fit = mem_fit_first := by rw [hσ]; exact hfit
    have hfirst' : S σ'.first ∨ σ'.first = addW V (alloc_size n) := by
      rw [hσ]
      show S (if σ.first = V then addW V (alloc_size n) else σ.first) ∨
        (if σ.first = V then addW V (alloc_size n) else σ.first) = addW V (alloc_size n)
      split
      · exact Or.inr rfl
      · exact Or.inl hfirst
    refine ⟨⟨hfit', r, _, hclosed, hsized, hfirst', fun q hq => Or.inl (hlive q hq)⟩, ?_⟩
    intro hp0
    have hsub : subW p sizeof_bb = V := by
      rw [hpV]
      exact subW_addW_cancel V sizeof_bb hVlt (by unfold sizeof_bb W; omega)
    have hrdV : rd σ'.mem V = alloc_size n := by
      rw [hσ]
      show rd (wr (wr (wr σ.mem V (alloc_size n)) (addW V (alloc_size n))
        (rd σ.mem V - alloc_size n)) (addW V (alloc_size n) + next_off)
        (rd σ.mem (V + next_off))) V = alloc_size n
      have h1 : V ≠ addW V (alloc_size n) + next_off := by
        unfold addW next_off; unfold W at hVlt hlt ⊢; omega
      have h2 : V ≠ addW V (alloc_size n) := by
        unfold addW; unfold W at hVlt hlt ⊢; omega
      rw [rd_wr_ne _ _ _ _ h1, rd_wr_ne _ _ _ _ h2]
      exact rd_wr_of_lt _ _ _ (by omega)
    refine ⟨⟨hfit', r, _, hclosed, hsized, hfirst', ?_⟩, by rw [hsub]; exact hrdV, by omega⟩
    intro q hq
    rcases List.mem_cons.mp hq with h' | h'
    · subst h'; rw [hsub]; exact Or.inl hSV
    · exact Or.inl (hlive q h')

theorem mem_free_sizeInv (fuel : Nat) (σ σ' : State) (L : List Nat) (p : Nat)
    (hinv : SizeInv σ L) (hp : p ∈ L) (h : mem_free fuel σ p = some σ') :
    SizeInv σ' (L.erase p) := by
  obtain ⟨hfit, r, S, hc, hs, hfirst, hlive⟩ := hinv
  have hnew := hlive p hp
  have hlive' : ∀ q ∈ L.erase p, S (subW q sizeof_bb) :=
    fun q hq => hlive q (List.mem_of_mem_erase hq)
  have hc1 := hc.size_store (subW p sizeof_bb) (rd σ.mem (subW p sizeof_bb))
    (hc.1 _ hnew).1
  have hs1 := hs.size_write (subW p sizeof_bb) (rd σ.mem (subW p sizeof_bb)) (hs _ hnew)
  unfold mem_free at h
  simp only at h
  split at h
  · simp at h
  · split at h
    · simp at h
    · rename_i q1 q2 hfind
      have hq := free_find_closedAt hc1 fuel σ.first _ q1 q2 hfirst hnew hfind
      split at h
      · simp at h
      · rename_i m2 hlink
        have hc2 := free_link_closedAt hc1 _ q1 q2 hq.1 hq.2 hnew hlink
        have hs2 := free_link_sized hc1 hs1 _ q1 q2 hq.1 hq.2 hnew hlink
        split at h
        · simp at h
          subst h
          exact ⟨hfit, r, S, hc2, hs2, hnew, hlive'⟩
        · simp at h
          subst h
          exact ⟨hfit, r, S, hc2, hs2, hfirst, hlive'⟩

theorem Reach.sizeInv {m0 : Mem} {base N : Nat}
    (hN : sizeof_allocator_header ≤ N)
    (hal : (N - sizeof_allocator_header) % ALIGNMENT = 0)
    {σ : State} {L : List Nat} (hr : Reach m0 base N σ L) : SizeInv σ L := by
  induction hr with
  | init => exact mem_init_sizeInv m0 base N hN hal
  | alloc_ok _ h hp ih => exact ((mem_alloc_sizeInv _ _ _ _ _ _ ih h).2 hp).1
  | alloc_null _ h ih => exact (mem_alloc_sizeInv _ _ _ _ _ _ ih h).1
  | free _ hp h ih => exact mem_free_sizeInv _ _ _ _ _ ih hp h

/-- Every node met along `first`, `->next`, ... belongs to a closed set containing
`first`. -/
theorem node_at_closed {r : Nat} {S : Nat → Prop} {m : Mem} (hc : ClosedAt r S m) :
    ∀ (k fb : Nat), S fb → node_at m k fb = 0 ∨ S (node_at m k fb) := by
  intro k
  induction k with
  | zero => intro fb h; exact Or.inr h
  | succ j ih =>
    intro fb h
    simp only [node_at]
    split
    · exact Or.inl rfl
    · rcases hc.2 fb h with h0 | hS
      · rw [h0]
        left
        cases j <;> simp [node_at]
      · exact ih _ hS

/-- C18 as amended. For any base and a size `N` that satisfies the precondition of
`mem_init` and makes `N - sizeof(struct allocator_header)` a multiple of `ALIGNMENT`:
the block `mem_init` creates has a `size` field that is a
positive multiple of `ALIGNMENT`; in every state reachable by `mem_alloc` / `mem_free`
calls under first fit (frees of live pointers only) the `size` field of every free-list
node and of every live block is a multiple of `ALIGNMENT`; and the block of every
non-null pointer `mem_alloc` returns is recorded with a `size` that is a positive
multiple of `ALIGNMENT`. -/
theorem block_sizes_aligned (m0 : Mem) (base N : Nat) (σ : State) (L : List Nat)
    (hpre : sizeof_allocator_header + sizeof_fb ≤ N)
    (hNW : N < W) (hal : (N - sizeof_allocator_header) % ALIGNMENT = 0)
    (hr : Reach m0 base N σ L) :
    (0 < rd (mem_init m0 base N).mem (mem_init m0 base N).first ∧
      rd (mem_init m0 base N).mem (mem_init m0 base N).first % ALIGNMENT = 0) ∧
    (∀ k, node_at σ.mem k σ.first ≠ 0 →
      rd σ.mem (node_at σ.mem k σ.first) % ALIGNMENT = 0) ∧
    (∀ p ∈ L, rd σ.mem (subW p sizeof_bb) % ALIGNMENT = 0) ∧
    (∀ fuel n σ' p, mem_alloc fuel σ n = some (σ', p) → p ≠ 0 →
      0 < rd σ'.mem (subW p sizeof_bb) ∧ rd σ'.mem (subW p sizeof_bb) % ALIGNMENT = 0) := by
  have hN : sizeof_allocator_header ≤ N := by omega
  have hinv := hr.sizeInv hN hal
  refine ⟨?_, ?_, ?_, ?_⟩
  · have hrd : rd (mem_init m0 base N).mem (mem_init m0 base N).first
        = N - sizeof_allocator_header := by
      show rd (wr (wr m0 (addW base sizeof_allocator_header)
        (subW N sizeof_allocator_header)) (addW base sizeof_allocator_header + next_off) 0)
        (addW base sizeof_allocator_header) = _
      rw [rd_wr_ne _ _ _ _ (by unfold next_off; omega), rd_wr_same]
      unfold subW sizeof_allocator_header W at *
      omega
    rw [hrd]
    exact ⟨by unfold sizeof_allocator_header sizeof_fb at *; omega, hal⟩
  · obtain ⟨_, _, S, hc, hs, hfirst, _⟩ := hinv
    intro k hk
    rcases node_at_closed hc k σ.first hfirst with h0 | hS
    · exact absurd h0 hk
    · exact hs _ hS
  · obtain ⟨_, _, S, _, hs, _, hlive⟩ := hinv
    intro p hp
    exact hs _ (hlive p hp)
  · intro fuel n σ' p h hp
    obtain ⟨_, hrd, hpos⟩ := (mem_alloc_sizeInv fuel σ σ' L n p hinv h).2 hp
    rw [hrd]
    exact ⟨hpos, by unfold ALIGNMENT; exact alloc_size_mod n⟩

/-! ## Releasing the lowest block -/

/-- `mem_free` on a block `B` that lies below the first node `f` of a non-empty free
list whose second node (if any) lies above `f`: the call returns and `first` is `B`. -/
theorem mem_free_below_first (σ : State) (B s f g k : Nat) (hB : 0 < B)
    (hs : rd σ.mem B = s) (hs0 : 0 < s) (hfirst : σ.first = f) (hf : B + s ≤ f)
    (hfW : f + rd σ.mem f < W) (hg : rd σ.mem (f + next_off) = g) (hg' : g = 0 ∨ f < g) :
    ∃ σ', mem_free (k + 1) σ (B + sizeof_bb) = some σ' ∧ σ'.first = B := by
  have hsW : s < W := hs ▸ rd_lt σ.mem B
  have hnew : subW (B + sizeof_bb) sizeof_bb = B := by
    unfold subW sizeof_bb; unfold W at hfW ⊢; omega
  have hB0 : B ≠ 0 := by omega
  have hf0 : f ≠ 0 := by omega
  have hrdB : rd (wr σ.mem B s) B = s := rd_wr_of_lt _ _ _ hsW
  have hrdf : rd (wr σ.mem B s) f = rd σ.mem f := rd_wr_ne _ _ _ _ (by omega)
  have hrdfn : rd (wr σ.mem B s) (f + next_off) = g := by
    rw [rd_wr_ne _ _ _ _ (by omega)]; exact hg
  have haddB : addW B s = B + s := by
    unfold addW; exact Nat.mod_eq_of_lt (by omega)
  have haddf : addW f (rd σ.mem f) = f + rd σ.mem f := by
    unfold addW; exact Nat.mod_eq_of_lt hfW
  have hsub : subW f s = f - s := subW_of_le _ _ (by omega) (by omega)
  have hfinal : B ≤ f - s := by omega
  by_cases hadj : B + s = f
  · -- the block touches the first node: `fusion` absorbs the node
    have hfind : free_find (k + 1) (wr σ.mem B s) f B = some (f, B) := by
      unfold free_find
      simp only [hf0, if_false, hrdB, haddB, hadj, if_true]
    have hlink : ∃ m2, free_link (wr σ.mem B s) B f B = some m2 := by
      unfold free_link fusion
      have h2 : ¬ (B = addW f (rd σ.mem f) ∧ f = B) := by
        rintro ⟨_, h⟩; omega
      simp only [hf0, if_false, ne_eq, not_true_eq_false, and_false, hrdB, hrdf, haddB,
        hadj, h2, if_true]
      exact ⟨_, rfl⟩
    obtain ⟨m2, hm2⟩ := hlink
    refine ⟨{ σ with first := B, mem := m2 }, ?_, rfl⟩
    unfold mem_free
    simp only [hnew, hB0, if_false, hs, hfirst, hfind, hm2, hsub, hfinal, if_true]
  · -- the block does not touch any node: it is linked in front of the list
    have hfind : free_find (k + 1) (wr σ.mem B s) f B = some (f, g) := by
      unfold free_find
      have h1 : ¬ (B + s = f) := hadj
      simp only [hf0, if_false, hrdB, haddB, h1, hrdfn, ne_eq, not_false_eq_true, true_and]
      by_cases hg0 : g = 0
      · simp only [hg0, not_true_eq_false, if_false]
      · have hgB : ¬ (g < B) := by
          rcases hg' with h | h
          · exact absurd h hg0
          · omega
        simp only [hg0, not_false_eq_true, if_true, free_search, hgB, and_false, if_false]
    have hlink : free_link (wr σ.mem B s) B f g = some (wr (wr σ.mem B s) (B + next_off) f) := by
      unfold free_link
      have h1 : addW f (rd σ.mem f) ≠ B := by rw [haddf]; omega
      have h2 : B + s ≠ g := by
        rcases hg' with h | h
        · omega
        · omega
      have h3 : g ≠ B := by
        rcases hg' with h | h
        · omega
        · omega
      have h4 : B < f := by omega
      simp only [hf0, if_false, hrdB, hrdf, haddB, ne_eq, h1, h2, h3, not_false_eq_true,
        and_self, if_true, h4]
    refine ⟨{ σ with first := B, mem := wr (wr σ.mem B s) (B + next_off) f }, ?_, rfl⟩
    unfold mem_free
    simp only [hnew, hB0, if_false, hs, hfirst, hfind, hlink, hsub, hfinal, if_true]

theorem Tiles.append_split {m : Mem} : ∀ {pre l : List (Nat × Nat)} {a e : Nat},
    Tiles m a (pre ++ l) e → ∃ mid, Tiles m a pre mid ∧ Tiles m mid l e := by
  intro pre
  induction pre with
  | nil => intro l a e h; exact ⟨a, rfl, h⟩
  | cons b p ih =>
    intro l a e h
    obtain ⟨h1, h2, h3, h4⟩ := h
    obtain ⟨mid, i1, i2⟩ := ih h4
    exact ⟨mid, ⟨h1, h2, h3, i1⟩, i2⟩

/-- In a well-formed state with a non-empty free list, releasing a block that lies below
every free block returns and makes that block the head of the free list. -/
theorem mem_free_lowest (σ : State) (bs pre post : List (Nat × Nat)) (nodes rest : List Nat)
    (B s f k : Nat) (hwf : WellFormed σ bs nodes) (hbs : bs = pre ++ (B, s) :: post)
    (hnodes : nodes = f :: rest) (hlow : ∀ a ∈ nodes, B < a) :
    ∃ σ', mem_free (k + 1) σ (B + sizeof_bb) = some σ' ∧ σ'.first = B := by
  obtain ⟨hW, ht, hc, hsub⟩ := hwf
  subst hbs
  subst hnodes
  have hsorted := (Tiles.sorted ht).sublist hsub
  obtain ⟨mid, ht1, ht2⟩ := Tiles.append_split ht
  obtain ⟨hBm, hs0, hrdB, ht3⟩ := ht2
  simp only at hBm hs0 hrdB ht3
  subst hBm
  have hB0 : 0 < B := by
    have := Tiles.le ht1
    unfold sizeof_allocator_header at this
    omega
  -- the first node is a block above `B`
  have hfB : B < f := hlow f (List.mem_cons_self _ _)
  have hfmem : f ∈ (pre ++ (B, s) :: post).map Prod.fst := hsub.subset (List.mem_cons_self _ _)
  obtain ⟨c, hcmem, hcf⟩ := List.mem_map.mp hfmem
  have hcpost : c ∈ post := by
    rcases List.mem_append.mp hcmem with h | h
    · have := (Tiles.mem ht1 c h)
      omega
    · rcases List.mem_cons.mp h with h' | h'
      · subst h'; simp only at hcf; omega
      · exact h'
  obtain ⟨hc1, hc2, hc3, _⟩ := Tiles.mem ht3 c hcpost
  rw [hcf] at hc1 hc2 hc3
  obtain ⟨hfirst, _, hchain⟩ := hc
  -- the second node, if any, lies above the first
  have hg : rd σ.mem (f + next_off) = 0 ∨ f < rd σ.mem (f + next_off) := by
    cases rest with
    | nil => exact Or.inl hchain
    | cons g r =>
      obtain ⟨hg1, _, _⟩ := hchain
      right
      rw [hg1]
      exact (List.pairwise_cons.mp hsorted).1 g (List.mem_cons_self _ _)
  exact mem_free_below_first σ B s f _ k hB0 hrdB hs0 hfirst hc1 (by rw [hc3]; omega) rfl hg

/-! ## The code on concrete runs -/

/-- C1 (code at the failing input). On a fresh region of 1024 bytes at 4096 the free
list is one node of 1000 bytes at 4120; after the balanced sequence
`a = alloc(10); b = alloc(30); free(a); free(b)` it is one node at 4120 of 984 bytes:
the state after `mem_init` is not restored. -/
theorem round_trip_queue_order :
    free_list 8 demo_init.mem demo_init.first = some [(4120, 1000)] ∧
    (run_queue 10 30).bind (fun σ => free_list 8 σ.mem σ.first) = some [(4120, 984)] := by
  decide

/-- C2 (code at the failing input). After
`a = alloc(100); b = alloc(10); free(a); c = alloc(200)`, the call `alloc(150)` returns
the pointer `c` again although `c` is live. -/
theorem live_pointer_returned_twice :
    run_reuse = some (4128, 4240, 4272, 4272) := by
  decide

/-- C3 (code at the failing input). After `a = alloc(30); b = alloc(10); free(a); free(b)`
on a region of 1024 bytes at 4096, `mem_show` visits a single block of size 1016, whereas
`memory_size - sizeof(struct allocator_header)` is 1000: the walk ends at 5136, beyond
the end 5120 of the region. -/
theorem walk_overruns_region :
    (run_queue 30 10).bind (mem_show 8) = some [(4120, 1016, 1)] ∧
    demo_init.memory_size - sizeof_allocator_header = 1000 ∧
    4120 + 1016 ≠ demo_init.memory_addr + demo_init.memory_size := by
  decide

/-- C5 (code at the failing input). On the fresh region `mem_alloc(2^64 - 7)` returns the
non-null pointer 4128 and the block it heads has `size` 16: 8 payload bytes for a request
of `2^64 - 7` bytes. -/
theorem huge_request_small_block :
    run_huge = some (4128, 16) ∧ 16 - sizeof_bb < W - 7 := by
  decide

/-- C9 (code at the failing input). Blocks `A X B R E` of 32 bytes each followed by the
tail, with `A`, `R` and the tail free (`R` is not the head): `mem_free(b)` leaves the
free list as it was, `R` keeps its place and its size, `B` is not a node. -/
theorem right_neighbour_not_head :
    run_right_setup.map (fun r => (free_list 8 r.1.mem r.1.first, r.2)) =
      some (some [(4120, 32), (4216, 32), (4280, 840)], 4192) ∧
    run_right_setup.bind (fun r => (mem_free 8 r.1 r.2).map
        (fun σ => (free_list 8 σ.mem σ.first, rd σ.mem 4184))) =
      some (some [(4120, 32), (4216, 32), (4280, 840)], 32) := by
  decide

/-- C10 (code at the failing input). Blocks `A B C` of 32 bytes each followed by the
tail, with `A` and the tail free: `mem_free(b)` leaves the free list as it was, the size
of `A` stays 32 and `B` is not a node. -/
theorem left_neighbour_not_merged :
    run_left_setup.map (fun r => (free_list 8 r.1.mem r.1.first, r.2)) =
      some (some [(4120, 32), (4216, 904)], 4160) ∧
    run_left_setup.bind (fun r => (mem_free 8 r.1 r.2).map
        (fun σ => (free_list 8 σ.mem σ.first, rd σ.mem 4152))) =
      some (some [(4120, 32), (4216, 904)], 32) := by
  decide
/-- C18 (the claim as stated fails). The region of 1024 bytes at 4096 satisfies the
precondition of `mem_init`, and right after `mem_init` its only block has the `size` field
1000, which is not a multiple of `ALIGNMENT`. -/
theorem init_block_size_not_aligned :
    sizeof_allocator_header + sizeof_fb ≤ 1024 ∧
    Reach zeroMem 4096 1024 demo_init [] ∧
    mem_show 2 demo_init = some [(4120, 1000, 1)] ∧ 1000 % ALIGNMENT ≠ 0 :=
  ⟨by decide, Reach.init, by decide, by decide⟩

/-- C11 (code at the failing input). The counts of `test05` are 2, 3, 2 and its merged
zone has the right size, 144, only because the three zones have the same size 48. In the
well-formed state with blocks `A B C D` of 32, 48, 32, 32 bytes followed by the tail,
where `A`, `C` and the tail are free, `mem_free(b)` leaves a node at `A` whose `next` is
the old `C.next`, but of size 96 = 32 + 32 + 32, not 112 = 32 + 48 + 32. -/
theorem three_way_merge_size :
    run_test05 = some (some 2, some 3, some 2, some [(4152, 144), (4408, 712)]) ∧
    run_bracket_setup = some demo_bracket ∧ demo_bracket.2 = 4160 ∧
    WellFormed demo_bracket.1
      [(4120, 32), (4152, 48), (4200, 32), (4232, 32), (4264, 856)] [4120, 4200, 4264] ∧
    (mem_free 8 demo_bracket.1 demo_bracket.2).map (fun σ => free_list 8 σ.mem σ.first) =
      some (some [(4120, 96), (4264, 856)]) := by
  refine ⟨rfl, rfl, rfl, ?_, rfl⟩
  unfold WellFormed Tiles Tiles Tiles Tiles Tiles Tiles Chain Chain Chain Chain
  decide

/-- C12 (code at the failing input). The scenario of `test03` behaves as claimed: after 31
calls `alloc(10)` the free list is the 8-byte tail at 5112, and releasing the pointer 4608
obtained at index 15 makes `first` equal to 4600. But in the well-formed state where the
only block of a 56-byte region is occupied and the free list is empty (`first == NULL`),
`mem_free` of the live pointer 4128 reads `p1->next` through the null `first`: no state
results, whatever the fuel. -/
theorem free_with_empty_list :
    run_fill.map (fun r => (free_list 8 r.1.mem r.1.first, r.2)) =
      some (some [(5112, 8)], 4608) ∧
    run_fill.bind (fun r => (mem_free 8 r.1 r.2).map (fun σ => σ.first)) = some 4600 ∧
    run_full = some demo_full ∧ demo_full.2 = 4128 ∧ demo_full.1.first = 0 ∧
    WellFormed demo_full.1 [(4120, 32)] [] ∧
    ∀ k, mem_free k demo_full.1 demo_full.2 = none := by
  refine ⟨rfl, rfl, rfl, rfl, rfl, ?_, fun k => rfl⟩
  unfold WellFormed Tiles Tiles Chain
  decide

/-- C14 (code at the failing input). In the well-formed state with the free list
`A(4120, 112) -> T(4264, 856)`, `mem_alloc(200)` needs 208 bytes and first fit returns
`T`, which is not the head. After the call the list is `A -> T(4264, 208)`: the
predecessor still points to the block just handed out (pointer 4272) and the remainder at
4472, of size 648, is not in the list. -/
theorem split_keeps_victim_linked :
    run_split_setup = some demo_split ∧
    WellFormed demo_split [(4120, 112), (4232, 32), (4264, 856)] [4120, 4264] ∧
    (mem_alloc 8 demo_split 200).map
        (fun r => (r.2, free_list 8 r.1.mem r.1.first, rd r.1.mem 4472)) =
      some (4272, some [(4120, 112), (4264, 208)], 648) := by
  refine ⟨rfl, ?_, rfl⟩
  unfold WellFormed Tiles Tiles Tiles Tiles Chain Chain Chain
  decide

/-- C15 (code at the failing input). In the well-formed state with the free list
`A(4120, 32) -> T(4184, 936)` and the placement function `fit_plain` installed,
`mem_alloc(10)` needs 32 bytes and is given the head `A`, an exact fit. After the call
`first` is `NULL` and the free list is empty: the old successor `T` is no longer
reachable. -/
theorem exact_fit_head_drops_list :
    run_exact_setup = some demo_exact ∧
    WellFormed demo_exact [(4120, 32), (4152, 32), (4184, 936)] [4120, 4184] ∧
    demo_exact.fit 8 demo_exact.mem demo_exact.first (alloc_size 10) = some 4120 ∧
    rd demo_exact.mem 4120 = alloc_size 10 ∧
    (mem_alloc 8 demo_exact 10).map
        (fun r => (r.2, r.1.first, free_list 8 r.1.mem r.1.first)) =
      some (4128, 0, some []) := by
  refine ⟨rfl, ?_, rfl, rfl, rfl⟩
  unfold WellFormed Tiles Tiles Tiles Tiles Chain Chain Chain
  decide

/-- C16 (code at the failing input). After `a = alloc(10); b = alloc(0); c = alloc(0);
d = alloc(0); free(a); free(c); free(b)` the free list is `(4120, 80) -> (4200, 920)` and
`4120 + 80 = 4200`: the walk of `mem_show` meets two free blocks in a row (the live block
`d` at 4184 lies inside the first). -/
theorem adjacent_free_blocks_after_free :
    (run_swallow 10).map (fun σ => (free_list 8 σ.mem σ.first, mem_show 8 σ)) =
      some (some [(4120, 80), (4200, 920)], some [(4120, 80, 1), (4200, 920, 1)]) := by
  decide

/-- C17 (code at the failing input). After `a = alloc(50); b = alloc(0); c = alloc(0);
d = alloc(0); free(a); free(c); free(b)` the free list is `(4120, 144) -> (4232, 888)`;
then `alloc(120)` splits the head and the list becomes `(4248, 16) -> (4232, 888)`: the
addresses are not increasing. -/
theorem free_list_not_sorted :
    (run_swallow 50).map (fun σ => free_list 8 σ.mem σ.first) =
      some (some [(4120, 144), (4232, 888)]) ∧
    (run_swallow 50).bind (fun σ => (mem_alloc 8 σ 120).map
        (fun r => (r.2, free_list 8 r.1.mem r.1.first))) =
      some (4128, some [(4248, 16), (4232, 888)]) := by
  decide

/-- C19 (code at the failing input). On a region of 64 bytes at 4096 (which satisfies the
precondition of `mem_init`), `mem_alloc(10)` splits the 40-byte block: the remainder at
4152 has size 8, less than `sizeof(struct fb)`, and its `next` field, at 4160, is the
first address past the region. -/
theorem split_remainder_too_small :
    sizeof_allocator_header + sizeof_fb ≤ 64 ∧
    (mem_alloc 2 (mem_init zeroMem 4096 64) 10).map
        (fun r => (r.2, free_list 8 r.1.mem r.1.first)) = some (4128, some [(4152, 8)]) ∧
    8 < sizeof_fb ∧ 4152 + next_off = 4096 + 64 := by
  decide

/-- C4 (code at the failing input). On the fresh region with the caller's placement
function `fit_plain` installed by `mem_fit`, the request `n = 2^64 - 8` makes
`(n + sizeof(struct bb) + (ALIGNMENT-1)) & ~(ALIGNMENT-1)` wrap to 0. `mem_alloc` returns
the non-null pointer 4128, and the `size` field at `p - sizeof(struct bb)` is 1000, not
0: the block handed out is still the only node of the free list, and the next call
`alloc(10)` returns the same pointer 4128. Under `mem_fit_first` the same request returns
`NULL`, and `alloc(10)` records the size 32. -/
theorem wrapped_request_recorded_size :
    Nat.land (addW (addW (W - 8) sizeof_bb) (ALIGNMENT - 1)) (W - 1 - (ALIGNMENT - 1)) = 0 ∧
    run_wrap_zero = some (4128, 1000, some [(4120, 1000)], 4128) ∧
    (mem_alloc 2 demo_init (W - 8)).map Prod.snd = some 0 ∧
    (mem_alloc 2 demo_init 10).map (fun r => (r.2, rd r.1.mem (subW r.2 sizeof_bb))) =
      some (4128, 32) :=
  ⟨by decide, rfl, rfl, rfl⟩

/-! ## Instances -/

theorem mem_fit_first_reference_witness :
    Chain demo_two_nodes 4120 [4120, 4264] ∧ [4120, 4264].length < 3 ∧
    mem_fit_first 3 demo_two_nodes 4120 208 = some 4264 :=
  have hc : Chain demo_two_nodes 4120 [4120, 4264] :=
    ⟨rfl, by decide, rfl, by decide, show rd demo_two_nodes (4264 + next_off) = 0 by decide⟩
  ⟨hc, by decide,
    (mem_fit_first_reference demo_two_nodes 4120 208 3 [4120, 4264] hc (by decide)).2.1
      (by decide) [4120] 4264 [] rfl (by decide) (by decide)⟩

theorem mem_alloc_recorded_size_witness :
    mem_alloc 2 demo_init 10 = some demo_alloc10 ∧ demo_alloc10.2 = 4128 ∧
    rd demo_alloc10.1.mem (subW demo_alloc10.2 sizeof_bb) = 32 :=
  ⟨rfl, by decide,
    ((mem_alloc_recorded_size 2 demo_init demo_alloc10.1 10 demo_alloc10.2 (Or.inl rfl)
      (by decide) rfl (by decide)).2 (by decide)).trans (by decide)⟩

theorem mem_alloc_payload_address_witness :
    Reach zeroMem 4096 1024 demo_alloc10.1 [4128] ∧
    mem_alloc 2 demo_alloc10.1 30 = some demo_alloc30 ∧ demo_alloc30.2 = 4160 ∧
    demo_alloc30.2 % ALIGNMENT = 0 :=
  have hr : Reach zeroMem 4096 1024 demo_alloc10.1 [4128] :=
    Reach.alloc_ok Reach.init (show mem_alloc 2 demo_init 10 = some (demo_alloc10.1, 4128) from rfl)
      (by decide)
  ⟨hr, rfl, by decide,
    (mem_alloc_payload_address zeroMem 4096 1024 demo_alloc10.1 demo_alloc30.1 [4128] 2 30
      demo_alloc30.2 (by decide) hr rfl (by decide)).2⟩

theorem mem_alloc_failure_witness :
    mem_alloc 2 (mem_fit demo_init mem_fit_worst) 1 =
      some (mem_fit demo_init mem_fit_worst, 0) :=
  (mem_alloc_failure 2 (mem_fit demo_init mem_fit_worst) 1
    (fun _ h => Or.inl (Option.some.inj h).symm)).1 rfl

theorem block_sizes_aligned_witness :
    Reach zeroMem 4100 1032 skew_freed [4164] ∧
    free_list 3 skew_freed.mem skew_freed.first = some [(4124, 32), (4204, 928)] ∧
    node_at skew_freed.mem 1 skew_freed.first = 4204 ∧
    rd skew_freed.mem (node_at skew_freed.mem 1 skew_freed.first) % ALIGNMENT = 0 ∧
    rd skew_freed.mem (subW 4164 sizeof_bb) % ALIGNMENT = 0 :=
  have h1 : mem_alloc 2 skew_init 10 = some (skew_alloc10.1, 4132) := rfl
  have h2 : mem_alloc 2 skew_alloc10.1 30 = some (skew_alloc30.1, 4164) := rfl
  have h3 : mem_free 3 skew_alloc30.1 4132 = some skew_freed := rfl
  have hr : Reach zeroMem 4100 1032 skew_freed [4164] :=
    show Reach zeroMem 4100 1032 skew_freed ([4164, 4132].erase 4132) from
      Reach.free (Reach.alloc_ok (Reach.alloc_ok Reach.init h1 (by decide)) h2 (by decide))
        (by decide) h3
  have hall := block_sizes_aligned zeroMem 4100 1032 skew_freed [4164] (by decide)
    (by decide) (by decide) hr
  ⟨hr, by decide, by decide, hall.2.1 1 (by decide), hall.2.2.1 4164 (by decide)⟩

theorem mem_show_walk_witness :
    WellFormed demo_alloc10.1 [(4120, 32), (4152, 968)] [4152] ∧
    mem_show 3 demo_alloc10.1 = some [(4120, 32, 0), (4152, 968, 1)] :=
  have hwf : WellFormed demo_alloc10.1 [(4120, 32), (4152, 968)] [4152] := by
    unfold WellFormed Tiles Tiles Tiles Chain Chain
    decide
  ⟨hwf, (mem_show_walk demo_alloc10.1 [(4120, 32), (4152, 968)] [4152] 3 hwf (by decide)).1⟩

theorem stack_order_round_trip_witness :
    ∃ σ3 t s, free_seq 0 demo_stack_post.1 demo_stack_post.2 = some σ3 ∧
      (∀ j, free_list (j + 2) demo_stack_pre.1.mem demo_stack_pre.1.first = some [(t, s)]) ∧
      (∀ j, free_list (j + 2) σ3.mem σ3.first = some [(t, s)]) ∧
      (([10] : List Nat) = [] → t = 4096 + sizeof_allocator_header ∧
        s = 1024 - sizeof_allocator_header) :=
  stack_order_round_trip zeroMem 4096 1024 2 0 [10] [30, 20] demo_stack_pre.1
    demo_stack_post.1 demo_stack_pre.2 demo_stack_post.2 (by decide) (by decide) rfl rfl

end Allocator
